import Mathlib

/-!
Verification of the BitStream network serialization layer.

A shallow embedding of `engine/source/core/bitStream.cpp` (Torque engine,
OpenMBU): a bit-packed sequential reader/writer over a byte buffer, with
LSB-first bit order inside each byte and little-endian byte order for
multi-byte values.

Bytes are modelled as `Nat` kept below 256; the buffer is a `List Nat`
(`List.set` outside the list is a no-op, matching the in-buffer fragment of
the C memory); machine integer truncation is explicit `% 256` / `% 2^32`.
Fallible indexing used to analyse the read loop's memory accesses returns
`Option`.
-/

namespace BitStreamModel

/-- 3-component point (`Point3F`); float components idealized as reals. -/
structure Point3R where
  x : ℝ
  y : ℝ
  z : ℝ

/-- Stream state: the fields of `BitStream` (dataPtr, bitNum, bufSize,
maxReadBitNum, maxWriteBitNum, error, mCompressPoint, stringBuffer). -/
structure BStream where
  data : List Nat
  bitNum : Nat
  bufSize : Nat
  maxReadBitNum : Nat
  maxWriteBitNum : Nat
  error : Bool
  mCompressPoint : Point3R
  stringBuffer : Option (List Nat)

/-- Byte `k` of the little-endian representation of `src` (the C code reads
`ptr[k]` from the source memory). -/
def srcByte (src : Nat) (k : Nat) : Nat :=
  (src >>> (8 * k)) &&& 255

/-- Bit `i` of the buffer, LSB-first within each byte: bit `i % 8` of byte
`i / 8` (out-of-range bytes read as 0). -/
def bitAt (data : List Nat) (i : Nat) : Bool :=
  Nat.testBit (data.getD (i / 8) 0) (i % 8)

/-- The `while (stPtr <= endPtr)` loop of `BitStream::writeBits`: each
destination byte combines `(curB >> downShift) | (nextB << upShift)`,
truncated to 8 bits by the `U8` store. -/
def wbLoop (src upShift downShift : Nat) (curB srcIdx pos : Nat)
    (data : List Nat) : Nat → List Nat
  | 0 => data
  | Nat.succ m =>
    let nextB := srcByte src srcIdx
    wbLoop src upShift downShift nextB (srcIdx + 1) (pos + 1)
      (data.set pos (((curB >>> downShift) ||| (nextB <<< upShift)) % 256)) m

/-- `BitStream::writeBits(bitCount, bitPtr)` (bitStream.cpp:186). -/
def writeBits (bitCount : Nat) (src : Nat) (st : BStream) : BStream :=
  if bitCount = 0 then st
  else if st.maxWriteBitNum < bitCount + st.bitNum then { st with error := true }
  else
    let stOff := st.bitNum / 8
    let endOff := (bitCount + st.bitNum - 1) / 8
    let upShift := st.bitNum % 8
    let downShift := 8 - upShift
    let lastMask := 255 >>> (7 - ((st.bitNum + bitCount - 1) % 8))
    let startMask := 255 >>> downShift
    let curB := srcByte src 0
    let d1 := st.data.set stOff
      (((curB <<< upShift) ||| (st.data.getD stOff 0 &&& startMask)) % 256)
    let d2 := wbLoop src upShift downShift curB 1 (stOff + 1) d1 (endOff - stOff)
    let d3 := d2.set endOff (d2.getD endOff 0 &&& lastMask)
    { st with data := d3, bitNum := st.bitNum + bitCount }

/-- `BitStream::writeFlag(val)` (bitStream.cpp:234): returns the written value,
or `false` on an out-of-range write. -/
def writeFlag (val : Bool) (st : BStream) : Bool × BStream :=
  if st.maxWriteBitNum < st.bitNum + 1 then (false, { st with error := true })
  else
    let idx := st.bitNum / 8
    let mask := 1 <<< (st.bitNum % 8)
    let oldB := st.data.getD idx 0
    let newB := if val then (oldB ||| mask) % 256 else oldB &&& (255 ^^^ mask)
    (val, { st with data := st.data.set idx newB, bitNum := st.bitNum + 1 })

/-- The read loop of `BitStream::readBits`: destination byte
`(curB >> downShift) | (nextB << upShift)` where `nextB = *++stPtr`. -/
def rbLoop (data : List Nat) (downShift upShift : Nat) (curB pos : Nat)
    (dst : List Nat) (dstIdx : Nat) : Nat → List Nat
  | 0 => dst
  | Nat.succ m =>
    let nextB := data.getD (pos + 1) 0
    rbLoop data downShift upShift nextB (pos + 1)
      (dst.set dstIdx (((curB >>> downShift) ||| (nextB <<< upShift)) % 256))
      (dstIdx + 1) m

/-- `BitStream::readBits(bitCount, bitPtr)` (bitStream.cpp:250): fills
`ceil(bitCount/8)` destination bytes; on over-read sets `error` and leaves
both stream and destination untouched. -/
def readBits (bitCount : Nat) (st : BStream) (dst : List Nat) :
    BStream × List Nat :=
  if bitCount = 0 then (st, dst)
  else if st.maxReadBitNum < bitCount + st.bitNum then
    ({ st with error := true }, dst)
  else
    let stOff := st.bitNum / 8
    let downShift := st.bitNum % 8
    let upShift := 8 - downShift
    let byteCount := (bitCount + 7) / 8
    let curB := st.data.getD stOff 0
    ({ st with bitNum := st.bitNum + bitCount },
      rbLoop st.data downShift upShift curB stOff dst 0 byteCount)

/-- The read loop again, but with `Option`-valued buffer indexing recording
whether every `*++stPtr` dereference stays inside the buffer. -/
def rbLoopChk (data : List Nat) (downShift upShift : Nat) (curB pos : Nat)
    (dst : List Nat) (dstIdx : Nat) : Nat → Option (List Nat)
  | 0 => some dst
  | Nat.succ m =>
    match data[pos + 1]? with
    | none => none
    | some nextB =>
      rbLoopChk data downShift upShift nextB (pos + 1)
        (dst.set dstIdx (((curB >>> downShift) ||| (nextB <<< upShift)) % 256))
        (dstIdx + 1) m

/-- `BitStream::readBits` with every buffer access checked: `none` exactly
when some dereference of the source buffer is out of bounds. -/
def readBitsChk (bitCount : Nat) (st : BStream) (dst : List Nat) :
    Option (BStream × List Nat) :=
  if bitCount = 0 then some (st, dst)
  else if st.maxReadBitNum < bitCount + st.bitNum then
    some ({ st with error := true }, dst)
  else
    match st.data[st.bitNum / 8]? with
    | none => none
    | some curB =>
      match rbLoopChk st.data (st.bitNum % 8) (8 - st.bitNum % 8) curB
          (st.bitNum / 8) dst 0 ((bitCount + 7) / 8) with
      | none => none
      | some dst2 => some ({ st with bitNum := st.bitNum + bitCount }, dst2)

/-- Modelled from the spec: `BitStream::readFlag` lives in
`core/bitStream.h`, which is not part of the sources; the spec describes it
as a single-bit read, LSB-first at the bit cursor, advancing the cursor by
one, with an out-of-range read setting the sticky `error` flag. -/
def readFlag (st : BStream) : Bool × BStream :=
  if st.maxReadBitNum < st.bitNum + 1 then (false, { st with error := true })
  else
    (Nat.testBit (st.data.getD (st.bitNum / 8) 0) (st.bitNum % 8),
      { st with bitNum := st.bitNum + 1 })

/-- Assemble a little-endian byte list into a number (the value of the `S32`
destination that `readInt` hands to `readBits`). -/
def natOfBytes : List Nat → Nat
  | [] => 0
  | b :: rest => b + 256 * natOfBytes rest

/-- `BitStream::readInt(bitCount)` (bitStream.cpp:292): reads into a zeroed
4-byte `S32`; at 32 bits the value is returned whole (two's complement sign
preserved), otherwise it is masked to `bitCount` bits. -/
def readInt (bitCount : Nat) (st : BStream) : Int × BStream :=
  let p := readBits bitCount st [0, 0, 0, 0]
  let v := natOfBytes p.2
  if bitCount = 32 then
    (if v < 2 ^ 31 then (v : Int) else (v : Int) - 2 ^ 32, p.1)
  else
    (((v &&& ((1 <<< bitCount) - 1) : Nat) : Int), p.1)

/-- `BitStream::writeInt(val, bitCount)` (bitStream.cpp:304): the source
bytes are the little-endian two's complement `S32`. -/
def writeInt (val : Int) (bitCount : Nat) (st : BStream) : BStream :=
  writeBits bitCount (val % (2 ^ 32 : Int)).toNat st

/-- `BitStream::writeSignedInt(value, bitCount)` (bitStream.cpp:330): sign as
a leading flag, then the magnitude in `bitCount - 1` bits. -/
def writeSignedInt (value : Int) (bitCount : Nat) (st : BStream) : BStream :=
  let p := writeFlag (decide (value < 0)) st
  if p.1 then writeInt (-value) (bitCount - 1) p.2
  else writeInt value (bitCount - 1) p.2

/-- `BitStream::readSignedInt(bitCount)` (bitStream.cpp:338). -/
def readSignedInt (bitCount : Nat) (st : BStream) : Int × BStream :=
  let p := readFlag st
  let q := readInt (bitCount - 1) p.2
  if p.1 then (-q.1, q.2) else q

/-- `BitStream::getPosition` (bitStream.cpp:137): bytes, rounded up. -/
def getPosition (st : BStream) : Nat :=
  (st.bitNum + 7) >>> 3

/-- `BitStream::setPosition(pos)` (bitStream.cpp:143). -/
def setPosition (pos : Nat) (st : BStream) : BStream :=
  { st with bitNum := pos <<< 3 }

/-- `BitStream::setBuffer(bufPtr, size, maxSize)` (bitStream.cpp:124): resets
cursor, recomputes both ceilings, clears `error`, clears the compression
point. -/
def setBuffer (bufPtr : List Nat) (size : Nat) (maxSize : Int) (st : BStream) :
    BStream :=
  let maxSize2 : Int := if maxSize < 0 then (size : Int) else maxSize
  { st with
    data := bufPtr
    bitNum := 0
    bufSize := size
    maxReadBitNum := size <<< 3
    maxWriteBitNum := maxSize2.toNat <<< 3
    error := false
    mCompressPoint := ⟨0, 0, 0⟩ }

/-- `InfiniteBitStream` carries the `mMinSpace` headroom of its
`ResizeBitStream` base. -/
structure IStream where
  str : BStream
  mMinSpace : Nat

/-- `InfiniteBitStream::compact` (bitStream.cpp:677): `dMalloc(bufSize)` runs
BEFORE `bufSize` is reassigned, so the fresh buffer has the OLD size and
`dMemcpy` copies the whole old buffer into it; only the logical `bufSize` and
the two bit ceilings take the value `getPosition() + mMinSpace * 2`. -/
def compact (s : IStream) : IStream :=
  let oldSize := s.str.bufSize
  let tmp := (s.str.data ++ List.replicate oldSize 0).take oldSize
  let newSize := getPosition s.str + s.mMinSpace * 2
  { s with str := { s.str with
      data := tmp
      bufSize := newSize
      maxReadBitNum := newSize <<< 3
      maxWriteBitNum := newSize <<< 3 } }

/-- `BitStream::setCurPos` is the bit-level cursor accessor; modelled from
the spec (the accessor lives in `core/bitStream.h`, not in the sources): it
sets the bit cursor directly. -/
def setCurPos (p : Nat) (st : BStream) : BStream :=
  { st with bitNum := p }

/-- `BitStream::setCompressionPoint(p)` (bitStream.cpp:491). -/
def setCompressionPoint (p : Point3R) (st : BStream) : BStream :=
  { st with mCompressPoint := p }

/-- `BitStream::clearCompressionPoint` (bitStream.cpp:486). -/
def clearCompressionPoint (st : BStream) : BStream :=
  { st with mCompressPoint := ⟨0, 0, 0⟩ }

/-- `BitStream::getPacketStream(writeSize)` (bitStream.cpp:25): rebinds the
process-wide packet stream to the static packet buffer and resets its
position. The packet buffer and `MaxPacketDataSize` are externals, passed as
parameters. -/
def getPacketStream (maxPacketDataSize : Nat) (packetBuffer : List Nat)
    (writeSize : Nat) (gs : BStream) : BStream :=
  let ws := if writeSize = 0 then maxPacketDataSize else writeSize
  setPosition 0 (setBuffer packetBuffer ws (maxPacketDataSize : Int) gs)

/-! ## Float-based codecs

`F32` arithmetic is idealized over `ℝ`; the C cast `(S32)x` truncates toward
zero; raw 32-bit float stores go through an abstract IEEE encoding pair
`enc : ℝ → Nat` / `dec : Nat → ℝ` since the bit-level float format is
external to this translation unit. -/

/-- Truncation toward zero, the semantics of the C cast `(S32)x`. -/
noncomputable def truncS32 (x : ℝ) : ℤ :=
  if x < 0 then -⌊-x⌋ else ⌊x⌋

/-- `p - q` on `Point3F`. -/
def Point3R.sub (p q : Point3R) : Point3R :=
  ⟨p.x - q.x, p.y - q.y, p.z - q.z⟩

/-- `Point3F::len`. -/
noncomputable def Point3R.len (p : Point3R) : ℝ :=
  Real.sqrt (p.x * p.x + p.y * p.y + p.z * p.z)

/-- `BitStream::writeFloat(f, bitCount)` (bitStream.cpp:310). -/
noncomputable def writeFloat (f : ℝ) (bitCount : Nat) (st : BStream) : BStream :=
  writeInt (truncS32 (f * ((2 ^ bitCount - 1 : Nat) : ℝ))) bitCount st

/-- `BitStream::readFloat(bitCount)` (bitStream.cpp:315). -/
noncomputable def readFloat (bitCount : Nat) (st : BStream) : ℝ × BStream :=
  let q := readInt bitCount st
  ((q.1 : ℝ) / ((2 ^ bitCount - 1 : Nat) : ℝ), q.2)

/-- `BitStream::writeSignedFloat(f, bitCount)` (bitStream.cpp:320). -/
noncomputable def writeSignedFloat (f : ℝ) (bitCount : Nat) (st : BStream) : BStream :=
  writeInt (truncS32 (((f + 1) * 0.5) * ((2 ^ bitCount - 1 : Nat) : ℝ))) bitCount st

/-- `BitStream::readSignedFloat(bitCount)` (bitStream.cpp:325). -/
noncomputable def readSignedFloat (bitCount : Nat) (st : BStream) : ℝ × BStream :=
  let q := readInt bitCount st
  ((q.1 : ℝ) * 2 / ((2 ^ bitCount - 1 : Nat) : ℝ) - 1, q.2)

/-- `BitStream::writeNormalVector(vec, bitCount)` (bitStream.cpp:346); the
external math routine `mAtan` (atan2) is a parameter. -/
noncomputable def writeNormalVector (matan : ℝ → ℝ → ℝ) (vec : Point3R)
    (bitCount : Nat) (st : BStream) : BStream :=
  let phi := matan vec.x vec.y / Real.pi
  let theta := matan vec.z (Real.sqrt (vec.x * vec.x + vec.y * vec.y)) /
    (Real.pi / 2)
  writeSignedFloat theta bitCount (writeSignedFloat phi (bitCount + 1) st)

/-- `BitStream::readNormalVector(vec, bitCount)` (bitStream.cpp:355). -/
noncomputable def readNormalVector (bitCount : Nat) (st : BStream) :
    Point3R × BStream :=
  let p := readSignedFloat (bitCount + 1) st
  let t := readSignedFloat bitCount p.2
  let phi := p.1 * Real.pi
  let theta := t.1 * (Real.pi / 2)
  (⟨Real.sin phi * Real.cos theta, Real.cos phi * Real.cos theta,
    Real.sin theta⟩, t.2)

/-- `BitStream::writeNormalVector(vec, angleBitCount, zBitCount)`
(bitStream.cpp:378), the azimuth/elevation overload used by `writeVector`:
`z` clamped to `[-1, 1]` as a signed float at `zBitCount`, then the azimuth
`atan2(x, y) / 2π` at `angleBitCount`, or angle 0 when both `|x|` and `|y|`
are within the epsilon `0.00001`. -/
noncomputable def writeNormalVectorAZ (matan : ℝ → ℝ → ℝ) (vec : Point3R)
    (angleBitCount zBitCount : Nat) (st : BStream) : BStream :=
  let st1 := writeSignedFloat (max (-1) (min vec.z 1)) zBitCount st
  if 1 / 100000 < |vec.x| ∨ 1 / 100000 < |vec.y| then
    writeSignedFloat (matan vec.x vec.y / (2 * Real.pi)) angleBitCount st1
  else
    writeSignedFloat 0 angleBitCount st1

/-- `BitStream::readNormalVector(vec, angleBitCount, zBitCount)`
(bitStream.cpp:394): read `z`, then the angle; `mult = sqrt(1 - z^2)`,
guarded to 0 when the radicand is not positive. -/
noncomputable def readNormalVectorAZ (angleBitCount zBitCount : Nat)
    (st : BStream) : Point3R × BStream :=
  let z := readSignedFloat zBitCount st
  let a := readSignedFloat angleBitCount z.2
  let angle := 2 * Real.pi * a.1
  let mult := if 0 < 1 - z.1 * z.1 then Real.sqrt (1 - z.1 * z.1) else 0
  (⟨mult * Real.sin angle, mult * Real.cos angle, z.1⟩, a.2)

/-- `BitStream::writeVector(vec, minMag, maxMag, magBits, angleBits, zBits)`
(bitStream.cpp:410): flag `|v| > minMag` (nothing more when it is false);
then flag `|v| < maxMag` selecting the quantized magnitude `|v| / maxMag` at
`magBits` versus a raw 32-bit float store (`write(mag)`, abstracted by `enc`
as in the tier-3 compressed point); then the direction `v / |v|` in
azimuth/elevation form. -/
noncomputable def writeVector (matan : ℝ → ℝ → ℝ) (enc : ℝ → Nat)
    (vec : Point3R) (minMag maxMag : ℝ) (magBits angleBits zBits : Nat)
    (st : BStream) : BStream :=
  let mag := Point3R.len vec
  let q := writeFlag (decide (mag > minMag)) st
  if q.1 then
    let q2 := writeFlag (decide (mag < maxMag)) q.2
    let st2 := if q2.1 then writeFloat (mag / maxMag) magBits q2.2
      else writeBits 32 (enc mag) q2.2
    writeNormalVectorAZ matan
      ⟨vec.x * (1 / mag), vec.y * (1 / mag), vec.z * (1 / mag)⟩
      angleBits zBits st2
  else
    q.2

/-- `BitStream::readVector(vec, minMag, maxMag, magBits, angleBits, zBits)`
(bitStream.cpp:427); the C signature also carries `minMag`, which the read
path never consults. Outer flag false yields `(0, 0, 0)`; otherwise the inner
flag selects quantized magnitude (`readFloat(magBits) * maxMag`) versus a raw
32-bit float (`read(&mag)`, abstracted by `dec`), then the direction is read
in azimuth/elevation form and scaled by the magnitude. -/
noncomputable def readVector (dec : Nat → ℝ) (maxMag : ℝ)
    (magBits angleBits zBits : Nat) (st : BStream) : Point3R × BStream :=
  let q := readFlag st
  if q.1 then
    let q2 := readFlag q.2
    let m := if q2.1 then
        let f := readFloat magBits q2.2
        (f.1 * maxMag, f.2)
      else
        let r := readBits 32 q2.2 [0, 0, 0, 0]
        (dec (natOfBytes r.2), r.1)
    let nv := readNormalVectorAZ angleBits zBits m.2
    (⟨nv.1.x * m.1, nv.1.y * m.1, nv.1.z * m.1⟩, nv.2)
  else
    (⟨0, 0, 0⟩, q.2)

/-- `BitStream::writeAffineTransform(matrix)` (bitStream.cpp:447): the matrix
is decomposed by the external math library (out of scope per the spec) into
its translation column and a normalized orientation quaternion, taken here as
inputs; `mathWrite` of the translation is three raw 32-bit float stores
(spec 4.3), then the quaternion `x, y, z` as raw floats and a flag holding
the sign of `w`. Raw float stores are abstracted by `enc` as elsewhere. -/
noncomputable def writeAffineTransform (enc : ℝ → Nat) (pos : Point3R)
    (qx qy qz qw : ℝ) (st : BStream) : BStream :=
  let s1 := writeBits 32 (enc pos.z)
    (writeBits 32 (enc pos.y) (writeBits 32 (enc pos.x) st))
  let s2 := writeBits 32 (enc qz)
    (writeBits 32 (enc qy) (writeBits 32 (enc qx) s1))
  (writeFlag (decide (qw < 0)) s2).2

/-- `BitStream::readAffineTransform(matrix)` (bitStream.cpp:464): read the
translation (three raw floats) and the quaternion `x, y, z`; recover
`w = sqrt(1 - min(x^2 + y^2 + z^2, 1))`, negated when the sign flag is set.
The matrix rebuild is external math; the decomposed data is returned. -/
noncomputable def readAffineTransform (dec : Nat → ℝ) (st : BStream) :
    (Point3R × (ℝ × ℝ × ℝ × ℝ)) × BStream :=
  let rx := readBits 32 st [0, 0, 0, 0]
  let ry := readBits 32 rx.1 [0, 0, 0, 0]
  let rz := readBits 32 ry.1 [0, 0, 0, 0]
  let qxr := readBits 32 rz.1 [0, 0, 0, 0]
  let qyr := readBits 32 qxr.1 [0, 0, 0, 0]
  let qzr := readBits 32 qyr.1 [0, 0, 0, 0]
  let qx := dec (natOfBytes qxr.2)
  let qy := dec (natOfBytes qyr.2)
  let qz := dec (natOfBytes qzr.2)
  let f := readFlag qzr.1
  let w0 := Real.sqrt (1 - min (qx * qx + qy * qy + qz * qz) 1)
  ((⟨dec (natOfBytes rx.2), dec (natOfBytes ry.2), dec (natOfBytes rz.2)⟩,
    (qx, qy, qz, if f.1 then -w0 else w0)), f.2)

/-- `gBitCounts` (bitStream.cpp:496): per-tier signed-int widths. -/
def gBitCounts : Nat → Nat
  | 0 => 16
  | 1 => 18
  | 2 => 20
  | _ => 32

/-- The tier selector of `writeCompressedPoint` (bitStream.cpp:508-515): the
`if (dist < ...) type = ...` chain. -/
noncomputable def compressedType (dist : ℝ) : Nat :=
  if dist < 2 ^ 15 then 0
  else if dist < 2 ^ 17 then 1
  else if dist < 2 ^ 19 then 2
  else 3

/-- `BitStream::writeCompressedPoint(p, scale)` (bitStream.cpp:500): tier from
`dist = |p - anchor| / scale`, written in 2 bits; tiers 0-2 write the three
scaled components as signed ints of the tier width; tier 3 writes the raw
absolute floats. -/
noncomputable def writeCompressedPoint (enc : ℝ → Nat) (p : Point3R)
    (scale : ℝ) (st : BStream) : BStream :=
  let invScale := 1 / scale
  let vec := Point3R.sub p st.mCompressPoint
  let dist := Point3R.len vec * invScale
  let typ : Nat := compressedType dist
  let st1 := writeInt (typ : Int) 2 st
  if typ ≠ 3 then
    let bits := gBitCounts typ
    writeSignedInt (truncS32 (vec.z * invScale)) bits
      (writeSignedInt (truncS32 (vec.y * invScale)) bits
        (writeSignedInt (truncS32 (vec.x * invScale)) bits st1))
  else
    writeBits 32 (enc p.z) (writeBits 32 (enc p.y) (writeBits 32 (enc p.x) st1))

/-- `BitStream::readCompressedPoint(p, scale)` (bitStream.cpp:534): tier 3
reads three raw floats; tiers 0-2 read signed ints and add the anchor back. -/
noncomputable def readCompressedPoint (dec : Nat → ℝ) (scale : ℝ)
    (st : BStream) : Point3R × BStream :=
  let q := readInt 2 st
  if q.1 = 3 then
    let rx := readBits 32 q.2 [0, 0, 0, 0]
    let ry := readBits 32 rx.1 [0, 0, 0, 0]
    let rz := readBits 32 ry.1 [0, 0, 0, 0]
    (⟨dec (natOfBytes rx.2), dec (natOfBytes ry.2), dec (natOfBytes rz.2)⟩,
      rz.1)
  else
    let bits := gBitCounts q.1.toNat
    let qx := readSignedInt bits q.2
    let qy := readSignedInt bits qx.2
    let qz := readSignedInt bits qy.2
    (⟨st.mCompressPoint.x + (qx.1 : ℝ) * scale,
      st.mCompressPoint.y + (qy.1 : ℝ) * scale,
      st.mCompressPoint.z + (qz.1 : ℝ) * scale⟩, qz.2)

/-! ## Huffman string transport

`HuffmanProcessor::writeHuffBuffer` only consumes the per-symbol
`(code, numBits)` pairs of the 256 leaves, so the table is a parameter; the
claims about the string writer hold for every table, in particular for the
one `buildTables` constructs. -/

/-- The per-symbol fields of `HuffmanProcessor::HuffLeaf` that the writer
reads. -/
structure HuffLeaf where
  numBits : Nat
  code : Nat

/-- `dStrlen` on a byte list: distance to the first NUL (list end = NUL). -/
def strlenL (s : List Nat) : Nat :=
  (s.takeWhile (fun b => b ≠ 0)).length

/-- `HuffmanProcessor::writeHuffBuffer(stream, buffer, maxLen)`
(bitStream.cpp:893): `len = min(strlen, maxLen)`; `numBits` sums the leaf
code lengths; if `numBits ≥ 8·len` write flag 0, `len` in 8 bits, then the
raw bytes, else flag 1, `len` in 8 bits, then each symbol's code bits. -/
def writeHuffBuffer (leaves : Nat → HuffLeaf) (s : List Nat) (maxLen : Nat)
    (st : BStream) : BStream :=
  let len0 := strlenL s
  let len := if len0 > maxLen then maxLen else len0
  let numBits := ((s.take len).map (fun b => (leaves b).numBits)).sum
  if numBits ≥ 8 * len then
    writeBits (8 * len) (natOfBytes (s.take len))
      (writeInt (len : Int) 8 (writeFlag false st).2)
  else
    (s.take len).foldl
      (fun acc b => writeBits (leaves b).numBits (leaves b).code acc)
      (writeInt (len : Int) 8 (writeFlag true st).2)

/-- The prefix-scan loop of `BitStream::writeString` (bitStream.cpp:726):
`for (j = 0; j < maxLen && stringBuffer[j] == string[j] && string[j]; j++)`,
with list positions past the end reading as NUL. -/
def prefixLenAux (scratch s : List Nat) (maxLen : Nat) (j : Nat) : Nat :=
  if h : j < maxLen ∧ scratch.getD j 0 = s.getD j 0 ∧ s.getD j 0 ≠ 0 then
    prefixLenAux scratch s maxLen (j + 1)
  else j
termination_by maxLen - j
decreasing_by omega

/-- `BitStream::writeString(string, maxLen)` (bitStream.cpp:719). With a
scratch buffer bound: scan the common prefix, overwrite the scratch with the
truncated string, then either (flag 1, 8-bit offset, body of the suffix) when
the prefix exceeds 2, or (flag 0, body of the whole string); with no scratch
buffer, the body of the whole string alone. -/
def writeString (leaves : Nat → HuffLeaf) (s : List Nat) (maxLen : Nat)
    (st : BStream) : BStream :=
  match st.stringBuffer with
  | some scratch =>
    let j := prefixLenAux scratch s maxLen 0
    let st1 := { st with stringBuffer := some (s.take maxLen) }
    let p := writeFlag (decide (j > 2)) st1
    if p.1 then
      writeHuffBuffer leaves (s.drop j) (maxLen - j)
        (writeInt (j : Int) 8 p.2)
    else
      writeHuffBuffer leaves s maxLen p.2
  | none => writeHuffBuffer leaves s maxLen st

/-- Longest common prefix length of two byte lists (the specification-side
notion for the `writeString` prefix scan). -/
def lcpLen : List Nat → List Nat → Nat
  | a :: as, b :: bs => if a = b then lcpLen as bs + 1 else 0
  | _, _ => 0

/-- Wire format of the raw (uncompressed) string body, as the spec words it:
secondary flag 0, the length in 8 bits, then the raw bytes. -/
def rawStringBody (s : List Nat) (len : Nat) (st : BStream) : BStream :=
  writeBits (8 * len) (natOfBytes (s.take len))
    (writeInt (len : Int) 8 (writeFlag false st).2)

/-- Wire format of the compressed string body, as the spec words it: flag 1,
the length in 8 bits, then each symbol's code bits at its code length. -/
def huffStringBody (leaves : Nat → HuffLeaf) (s : List Nat) (len : Nat)
    (st : BStream) : BStream :=
  (s.take len).foldl
    (fun acc b => writeBits (leaves b).numBits (leaves b).code acc)
    (writeInt (len : Int) 8 (writeFlag true st).2)

/-- The wire format claimed by the spec for `writeString` with no scratch
buffer bound: an outer flag 0 followed by the body of the whole string. -/
def writeStringClaimedNoScratch (leaves : Nat → HuffLeaf) (s : List Nat)
    (maxLen : Nat) (st : BStream) : BStream :=
  writeHuffBuffer leaves s maxLen (writeFlag false st).2

/-- An interior node of the Huffman tree (`HuffmanProcessor::HuffNode`):
signed child indices with the convention `i ≥ 0` interior node, `i < 0` leaf
at `-i - 1`. -/
structure HuffNode where
  index0 : Int
  index1 : Int

/-- The inner `while (true)` descent of `HuffmanProcessor::readHuffBuffer`
(bitStream.cpp:865-879): from the given index, read one flag per interior
node and follow `index1` on 1 and `index0` on 0 until a negative index names
leaf `-(index + 1)`. The C loop carries no bound, so the embedding carries
fuel and returns `none` if the walk does not reach a leaf within it. -/
def huffWalk (nodes : Nat → HuffNode) (symbols : Nat → Nat) :
    Nat → Int → BStream → Option (Nat × BStream)
  | 0, _, _ => none
  | fuel + 1, index, st =>
    if 0 ≤ index then
      let q := readFlag st
      huffWalk nodes symbols fuel
        (if q.1 then (nodes index.toNat).index1 else (nodes index.toNat).index0)
        q.2
    else
      some (symbols (-(index + 1)).toNat, st)

/-- The `for (i = 0; i < len; i++)` loop of `readHuffBuffer`: one symbol per
iteration, each descent starting at node 0. -/
def rhbLoop (nodes : Nat → HuffNode) (symbols : Nat → Nat) (fuel : Nat) :
    Nat → BStream → List Nat → Option (List Nat × BStream)
  | 0, st, acc => some (acc.reverse, st)
  | i + 1, st, acc =>
    match huffWalk nodes symbols fuel 0 st with
    | none => none
    | some (sym, st2) => rhbLoop nodes symbols fuel i st2 (sym :: acc)

/-- `HuffmanProcessor::readHuffBuffer(stream, buffer)` (bitStream.cpp:857): a
flag selects compressed (`len` in 8 bits, then `len` tree descents) versus
raw (`len` in 8 bits, then `len` raw bytes; the multi-byte
`read(len, buffer)` lives in core/bitStream.h and is the `readBits(8·len)`
raw-bytes body of the spec). The interior-node and leaf-symbol tables are
parameters, as with the writer. -/
def readHuffBuffer (nodes : Nat → HuffNode) (symbols : Nat → Nat) (fuel : Nat)
    (st : BStream) : Option (List Nat × BStream) :=
  let q := readFlag st
  if q.1 then
    let l := readInt 8 q.2
    rhbLoop nodes symbols fuel l.1.toNat l.2 []
  else
    let l := readInt 8 q.2
    let r := readBits (8 * l.1.toNat) l.2 (List.replicate l.1.toNat 0)
    some (r.2, r.1)

/-- `BitStream::readString(buf)` (bitStream.cpp:702): with a scratch bound,
an outer flag selects prefix reuse: offset `j` in 8 bits, the suffix decoded
into the scratch at offset `j` (the result is the old scratch prefix of
length `j` followed by the decoded suffix) and copied out; with the flag
clear, or with no scratch bound, the whole string is decoded, and copied
back into the scratch when one is bound. -/
def readString (nodes : Nat → HuffNode) (symbols : Nat → Nat) (fuel : Nat)
    (st : BStream) : Option (List Nat × BStream) :=
  match st.stringBuffer with
  | some scratch =>
    let q := readFlag st
    if q.1 then
      let o := readInt 8 q.2
      match readHuffBuffer nodes symbols fuel o.2 with
      | none => none
      | some (sfx, st2) =>
        let full := scratch.take o.1.toNat ++ sfx
        some (full, { st2 with stringBuffer := some full })
    else
      match readHuffBuffer nodes symbols fuel q.2 with
      | none => none
      | some (buf, st2) => some (buf, { st2 with stringBuffer := some buf })
  | none =>
    readHuffBuffer nodes symbols fuel st

/-! ## Concrete states for counterexamples and witnesses -/

/-- A fresh zeroed 4-byte fixed stream. -/
def exampleStream : BStream :=
  { data := [0, 0, 0, 0], bitNum := 0, bufSize := 4, maxReadBitNum := 32,
    maxWriteBitNum := 32, error := false, mCompressPoint := ⟨0, 0, 0⟩,
    stringBuffer := none }

/-- A 13-byte zeroed stream with both bit ceilings at 104: room for the
98 bits of the largest compressed-point encoding. -/
def cpStream : BStream :=
  { data := [0, 0, 0, 0, 0, 0, 0, 0, 0, 0, 0, 0, 0], bitNum := 0, bufSize := 13,
    maxReadBitNum := 104, maxWriteBitNum := 104, error := false,
    mCompressPoint := ⟨0, 0, 0⟩, stringBuffer := none }

/-- A one-byte stream whose read ceiling is 0: any read overflows. -/
def tinyReadStream : BStream :=
  { data := [171], bitNum := 0, bufSize := 1, maxReadBitNum := 0,
    maxWriteBitNum := 8, error := false, mCompressPoint := ⟨0, 0, 0⟩,
    stringBuffer := none }

/-- A stream with both ceilings at 0: any write overflows. -/
def fullStream : BStream :=
  { data := [0], bitNum := 0, bufSize := 1, maxReadBitNum := 0,
    maxWriteBitNum := 0, error := false, mCompressPoint := ⟨0, 0, 0⟩,
    stringBuffer := none }

/-- A one-byte stream whose bounds allow an 8-bit read (`max_read_bits = 8`)
even though the read loop dereferences one byte past the buffer. -/
def oneByteStream : BStream :=
  { data := [171], bitNum := 0, bufSize := 1, maxReadBitNum := 8,
    maxWriteBitNum := 8, error := false, mCompressPoint := ⟨0, 0, 0⟩,
    stringBuffer := none }

/-- A stream already in the error state. -/
def erroredStream : BStream :=
  { data := [0, 0, 0, 0], bitNum := 0, bufSize := 4, maxReadBitNum := 32,
    maxWriteBitNum := 32, error := true, mCompressPoint := ⟨0, 0, 0⟩,
    stringBuffer := none }

/-- An unbounded-append stream at byte position 2 over a 100-byte buffer,
with `mMinSpace = 4`. -/
def exampleIStream : IStream :=
  ⟨{ data := List.replicate 100 0, bitNum := 16, bufSize := 100,
     maxReadBitNum := 800, maxWriteBitNum := 800, error := false,
     mCompressPoint := ⟨0, 0, 0⟩, stringBuffer := none }, 4⟩

/-- A trivial Huffman table: every symbol coded in one bit set to 1 (only
the structure of the writer matters, not the table contents). -/
def exampleLeaves : Nat → HuffLeaf :=
  fun _ => ⟨1, 1⟩

/-- A 64-byte zeroed stream with no scratch buffer bound. -/
def strStream : BStream :=
  { data := List.replicate 64 0, bitNum := 0, bufSize := 64,
    maxReadBitNum := 512, maxWriteBitNum := 512, error := false,
    mCompressPoint := ⟨0, 0, 0⟩, stringBuffer := none }

/-- The same stream with a scratch buffer holding "helloX". -/
def scratchStream : BStream :=
  { strStream with stringBuffer := some [104, 101, 108, 108, 111, 88] }

/-! ## Basic facts about bytes, indexing and masks -/

/-- All entries of a byte buffer fit in 8 bits (the `U8` invariant). -/
def bytesLt (l : List Nat) : Prop :=
  ∀ b ∈ l, b < 256

theorem bytesLt_getD {l : List Nat} (h : bytesLt l) (i : Nat) :
    l.getD i 0 < 256 := by
  rcases Nat.lt_or_ge i l.length with hi | hi
  · rw [List.getD_eq_getElem l 0 hi]
    exact h _ (List.getElem_mem hi)
  · rw [List.getD_eq_default _ _ hi]; norm_num

theorem getD_set_self {l : List Nat} {i : Nat} (a : Nat) (h : i < l.length) :
    (l.set i a).getD i 0 = a := by
  simp [List.getD_eq_getElem?_getD, List.getElem?_set_self', h]

theorem getD_set_ne {l : List Nat} {i j : Nat} (a d : Nat) (h : i ≠ j) :
    (l.set i a).getD j d = l.getD j d := by
  simp [List.getD_eq_getElem?_getD, List.getElem?_set_ne h]

theorem srcByte_lt (src k : Nat) : srcByte src k < 256 := by
  have : srcByte src k ≤ 255 := Nat.and_le_right
  omega

theorem testBit_srcByte (src k r : Nat) :
    (srcByte src k).testBit r = (decide (r < 8) && src.testBit (8 * k + r)) := by
  have h255 : (255 : Nat) = 2 ^ 8 - 1 := by norm_num
  rw [srcByte, Nat.testBit_and, h255, Nat.testBit_two_pow_sub_one,
    Nat.testBit_shiftRight, Bool.and_comm]

theorem testBit_255_shiftRight (k r : Nat) :
    ((255 : Nat) >>> k).testBit r = decide (k + r < 8) := by
  have h255 : (255 : Nat) = 2 ^ 8 - 1 := by norm_num
  rw [h255, Nat.testBit_shiftRight, Nat.testBit_two_pow_sub_one]

theorem testBit_one_shiftLeft (r j : Nat) :
    ((1 : Nat) <<< r).testBit j = decide (j = r) := by
  rw [Nat.testBit_shiftLeft]
  rcases Nat.lt_trichotomy j r with h | h | h
  · simp [Nat.not_le.mpr h, Nat.ne_of_lt h]
  · subst h; simp
  · have h1 : r ≤ j := Nat.le_of_lt h
    have h2 : Nat.testBit 1 (j - r) = false := by
      refine Nat.testBit_lt_two_pow ?_
      calc (1 : Nat) < 2 ^ 1 := by norm_num
      _ ≤ 2 ^ (j - r) := Nat.pow_le_pow_right (by norm_num) (by omega)
    simp [h1, h2, Nat.ne_of_gt h]

theorem testBit_mod256 (x r : Nat) :
    (x % 256).testBit r = (decide (r < 8) && x.testBit r) := by
  have h : (256 : Nat) = 2 ^ 8 := by norm_num
  rw [h, Nat.testBit_mod_two_pow]

theorem testBit_ge_8 {x : Nat} (h : x < 256) {r : Nat} (hr : 8 ≤ r) :
    x.testBit r = false := by
  refine Nat.testBit_lt_two_pow (Nat.lt_of_lt_of_le h ?_)
  calc (256 : Nat) = 2 ^ 8 := by norm_num
  _ ≤ 2 ^ r := Nat.pow_le_pow_right (by norm_num) hr

/-! ## The write loop -/

theorem wbLoop_length (src up down : Nat) :
    ∀ (m : Nat) (curB sIdx pos : Nat) (data : List Nat),
      (wbLoop src up down curB sIdx pos data m).length = data.length := by
  intro m
  induction m with
  | zero => intro curB sIdx pos data; rfl
  | succ k ih =>
    intro curB sIdx pos data
    rw [wbLoop, ih]
    exact List.length_set data pos _

theorem wbLoop_getD_lt (src up down : Nat) :
    ∀ (m : Nat) (curB sIdx pos : Nat) (data : List Nat) (b : Nat), b < pos →
      (wbLoop src up down curB sIdx pos data m).getD b 0 = data.getD b 0 := by
  intro m
  induction m with
  | zero => intro _ _ _ _ _ _; rfl
  | succ k ih =>
    intro curB sIdx pos data b hb
    rw [wbLoop, ih _ _ _ _ _ (Nat.lt_succ_of_lt hb)]
    exact getD_set_ne _ _ (by omega)

theorem wbLoop_getD_ge (src up down : Nat) :
    ∀ (m : Nat) (curB sIdx pos : Nat) (data : List Nat) (b : Nat), pos + m ≤ b →
      (wbLoop src up down curB sIdx pos data m).getD b 0 = data.getD b 0 := by
  intro m
  induction m with
  | zero => intro _ _ _ _ _ _; rfl
  | succ k ih =>
    intro curB sIdx pos data b hb
    rw [wbLoop, ih _ _ _ _ _ (by omega)]
    exact getD_set_ne _ _ (by omega)

theorem wbLoop_getD_mid (src up down : Nat) :
    ∀ (m : Nat) (curB sIdx pos : Nat) (data : List Nat) (b : Nat),
      1 ≤ sIdx → curB = srcByte src (sIdx - 1) → pos ≤ b → b < pos + m →
      b < data.length →
      (wbLoop src up down curB sIdx pos data m).getD b 0 =
        ((srcByte src (sIdx + (b - pos) - 1) >>> down) |||
          (srcByte src (sIdx + (b - pos)) <<< up)) % 256 := by
  intro m
  induction m with
  | zero => intro _ _ _ _ _ _ _ h1 h2; omega
  | succ k ih =>
    intro curB sIdx pos data b hs hc hb1 hb2 hlen
    rw [wbLoop]
    rcases Nat.eq_or_lt_of_le hb1 with hb0 | hb0
    · subst hb0
      rw [wbLoop_getD_lt src up down k _ _ _ _ _ (by omega)]
      rw [getD_set_self _ hlen, hc]
      simp
    · rw [ih _ (sIdx + 1) (pos + 1) _ b (by omega) (by simp) (by omega) (by omega)
        (by rw [List.length_set]; omega)]
      rw [show sIdx + 1 + (b - (pos + 1)) - 1 = sIdx + (b - pos) - 1 from by omega,
        show sIdx + 1 + (b - (pos + 1)) = sIdx + (b - pos) from by omega]

/-! ## Byte-level characterization of `writeBits` -/

theorem writeBits_length (st : BStream) (n src : Nat) :
    (writeBits n src st).data.length = st.data.length := by
  rw [writeBits]
  split
  · rfl
  split
  · rfl
  simp only [List.length_set, wbLoop_length]

theorem writeBits_fields (st : BStream) (n src : Nat) :
    (writeBits n src st).maxReadBitNum = st.maxReadBitNum ∧
    (writeBits n src st).maxWriteBitNum = st.maxWriteBitNum ∧
    (writeBits n src st).bufSize = st.bufSize ∧
    (writeBits n src st).mCompressPoint = st.mCompressPoint ∧
    (writeBits n src st).stringBuffer = st.stringBuffer := by
  rw [writeBits]
  split
  · exact ⟨rfl, rfl, rfl, rfl, rfl⟩
  split <;> exact ⟨rfl, rfl, rfl, rfl, rfl⟩

theorem writeBits_bitNum (st : BStream) (n src : Nat) (h0 : 0 < n)
    (hw : n + st.bitNum ≤ st.maxWriteBitNum) :
    (writeBits n src st).bitNum = st.bitNum + n := by
  have h1 : ¬ n = 0 := by omega
  have h2 : ¬ (st.maxWriteBitNum < n + st.bitNum) := by omega
  rw [writeBits, if_neg h1, if_neg h2]

theorem writeBits_error (st : BStream) (n src : Nat) (h0 : 0 < n)
    (hw : n + st.bitNum ≤ st.maxWriteBitNum) :
    (writeBits n src st).error = st.error := by
  have h1 : ¬ n = 0 := by omega
  have h2 : ¬ (st.maxWriteBitNum < n + st.bitNum) := by omega
  rw [writeBits, if_neg h1, if_neg h2]

theorem writeBits_data_getD (st : BStream) (n src : Nat) (h0 : 0 < n)
    (hw : n + st.bitNum ≤ st.maxWriteBitNum) (b : Nat)
    (hb : b < st.bitNum / 8 ∨ (n + st.bitNum - 1) / 8 < b) :
    (writeBits n src st).data.getD b 0 = st.data.getD b 0 := by
  have h1 : ¬ n = 0 := by omega
  have h2 : ¬ (st.maxWriteBitNum < n + st.bitNum) := by omega
  have hso : st.bitNum / 8 ≤ (n + st.bitNum - 1) / 8 := by omega
  rw [writeBits, if_neg h1, if_neg h2]
  simp only
  rw [getD_set_ne _ _ (by omega)]
  rcases hb with hb | hb
  · rw [wbLoop_getD_lt _ _ _ _ _ _ _ _ _ (by omega)]
    exact getD_set_ne _ _ (by omega)
  · rw [wbLoop_getD_ge _ _ _ _ _ _ _ _ _ (by omega)]
    exact getD_set_ne _ _ (by omega)

theorem writeBits_byte_start (st : BStream) (n src : Nat) (h0 : 0 < n)
    (hw : n + st.bitNum ≤ st.maxWriteBitNum)
    (hLs : st.bitNum / 8 < st.data.length)
    (hne : st.bitNum / 8 < (n + st.bitNum - 1) / 8) :
    (writeBits n src st).data.getD (st.bitNum / 8) 0 =
      ((srcByte src 0 <<< (st.bitNum % 8)) |||
        (st.data.getD (st.bitNum / 8) 0 &&& (255 >>> (8 - st.bitNum % 8)))) % 256 := by
  have h1 : ¬ n = 0 := by omega
  have h2 : ¬ (st.maxWriteBitNum < n + st.bitNum) := by omega
  rw [writeBits, if_neg h1, if_neg h2]
  simp only
  rw [getD_set_ne _ _ (by omega)]
  rw [wbLoop_getD_lt _ _ _ _ _ _ _ _ _ (by omega)]
  exact getD_set_self _ hLs

theorem writeBits_byte_start_single (st : BStream) (n src : Nat) (h0 : 0 < n)
    (hw : n + st.bitNum ≤ st.maxWriteBitNum)
    (hLs : st.bitNum / 8 < st.data.length)
    (heq : st.bitNum / 8 = (n + st.bitNum - 1) / 8) :
    (writeBits n src st).data.getD (st.bitNum / 8) 0 =
      (((srcByte src 0 <<< (st.bitNum % 8)) |||
        (st.data.getD (st.bitNum / 8) 0 &&& (255 >>> (8 - st.bitNum % 8)))) % 256)
        &&& (255 >>> (7 - (st.bitNum + n - 1) % 8)) := by
  have h1 : ¬ n = 0 := by omega
  have h2 : ¬ (st.maxWriteBitNum < n + st.bitNum) := by omega
  rw [writeBits, if_neg h1, if_neg h2]
  simp only
  rw [show (n + st.bitNum - 1) / 8 - st.bitNum / 8 = 0 from by omega]
  rw [show wbLoop src (st.bitNum % 8) (8 - st.bitNum % 8) (srcByte src 0) 1
      (st.bitNum / 8 + 1) (st.data.set (st.bitNum / 8)
        (((srcByte src 0 <<< (st.bitNum % 8)) |||
          (st.data.getD (st.bitNum / 8) 0 &&& (255 >>> (8 - st.bitNum % 8)))) % 256)) 0 =
      st.data.set (st.bitNum / 8)
        (((srcByte src 0 <<< (st.bitNum % 8)) |||
          (st.data.getD (st.bitNum / 8) 0 &&& (255 >>> (8 - st.bitNum % 8)))) % 256)
    from rfl]
  rw [← heq, getD_set_self _ (by rw [List.length_set]; exact hLs),
    getD_set_self _ hLs]

theorem writeBits_byte_mid (st : BStream) (n src : Nat) (h0 : 0 < n)
    (hw : n + st.bitNum ≤ st.maxWriteBitNum) (b : Nat)
    (hb1 : st.bitNum / 8 < b) (hb2 : b < (n + st.bitNum - 1) / 8)
    (hbL : b < st.data.length) :
    (writeBits n src st).data.getD b 0 =
      ((srcByte src (b - st.bitNum / 8 - 1) >>> (8 - st.bitNum % 8)) |||
        (srcByte src (b - st.bitNum / 8) <<< (st.bitNum % 8))) % 256 := by
  have h1 : ¬ n = 0 := by omega
  have h2 : ¬ (st.maxWriteBitNum < n + st.bitNum) := by omega
  rw [writeBits, if_neg h1, if_neg h2]
  simp only
  rw [getD_set_ne _ _ (by omega)]
  rw [wbLoop_getD_mid src _ _ _ _ _ _ _ _ (by omega) (by simp) (by omega) (by omega)
    (by rw [List.length_set]; omega)]
  rw [show 1 + (b - (st.bitNum / 8 + 1)) - 1 = b - st.bitNum / 8 - 1 from by omega,
    show 1 + (b - (st.bitNum / 8 + 1)) = b - st.bitNum / 8 from by omega]

theorem writeBits_byte_end (st : BStream) (n src : Nat) (h0 : 0 < n)
    (hw : n + st.bitNum ≤ st.maxWriteBitNum)
    (hne : st.bitNum / 8 < (n + st.bitNum - 1) / 8)
    (hbL : (n + st.bitNum - 1) / 8 < st.data.length) :
    (writeBits n src st).data.getD ((n + st.bitNum - 1) / 8) 0 =
      (((srcByte src ((n + st.bitNum - 1) / 8 - st.bitNum / 8 - 1) >>>
          (8 - st.bitNum % 8)) |||
        (srcByte src ((n + st.bitNum - 1) / 8 - st.bitNum / 8) <<<
          (st.bitNum % 8))) % 256)
        &&& (255 >>> (7 - (st.bitNum + n - 1) % 8)) := by
  have h1 : ¬ n = 0 := by omega
  have h2 : ¬ (st.maxWriteBitNum < n + st.bitNum) := by omega
  rw [writeBits, if_neg h1, if_neg h2]
  simp only
  rw [getD_set_self _ (by
    rw [wbLoop_length, List.length_set]
    exact hbL)]
  rw [wbLoop_getD_mid src _ _ _ _ _ _ _ _ (by omega) (by simp) (by omega) (by omega)
    (by rw [List.length_set]; omega)]
  rw [show 1 + ((n + st.bitNum - 1) / 8 - (st.bitNum / 8 + 1)) - 1 =
      (n + st.bitNum - 1) / 8 - st.bitNum / 8 - 1 from by omega,
    show 1 + ((n + st.bitNum - 1) / 8 - (st.bitNum / 8 + 1)) =
      (n + st.bitNum - 1) / 8 - st.bitNum / 8 from by omega]

/-! ## Bit-level characterization of `writeBits` -/

theorem loop_byte_testBit (src up t r : Nat) (hup : up < 8) (ht : 1 ≤ t)
    (hr : r < 8) :
    (((srcByte src (t - 1) >>> (8 - up)) ||| (srcByte src t <<< up)) % 256).testBit r =
      src.testBit (8 * t + r - up) := by
  rw [testBit_mod256, Nat.testBit_or, Nat.testBit_shiftRight, testBit_srcByte,
    Nat.testBit_shiftLeft, testBit_srcByte]
  rcases Nat.lt_or_ge r up with h | h
  · have e1 : decide (r < 8) = true := by simp [hr]
    have e2 : decide (8 - up + r < 8) = true := by simp; omega
    have e3 : decide (up ≤ r) = false := by simp; omega
    have e4 : 8 * (t - 1) + (8 - up + r) = 8 * t + r - up := by omega
    rw [e1, e2, e3, e4]
    simp
  · have e2 : decide (8 - up + r < 8) = false := by simp; omega
    have e3 : decide (up ≤ r) = true := by simp [h]
    have e5 : decide (r - up < 8) = true := by simp; omega
    have e4 : 8 * t + (r - up) = 8 * t + r - up := by omega
    rw [e2, e3, e5, e4]
    simp [hr]

theorem start_byte_testBit (src up old r : Nat) (hup : up < 8) (hr : r < 8) :
    (((srcByte src 0 <<< up) ||| (old &&& (255 >>> (8 - up)))) % 256).testBit r =
      (if r < up then old.testBit r else src.testBit (r - up)) := by
  rw [testBit_mod256, Nat.testBit_or, Nat.testBit_shiftLeft, testBit_srcByte,
    Nat.testBit_and, testBit_255_shiftRight]
  rcases Nat.lt_or_ge r up with h | h
  · have e2 : decide (8 - up + r < 8) = true := by simp; omega
    have e3 : decide (up ≤ r) = false := by simp; omega
    rw [e2, e3, if_pos h]
    simp [hr]
  · have e2 : decide (8 - up + r < 8) = false := by simp; omega
    have e3 : decide (up ≤ r) = true := by simp [h]
    have e5 : decide (r - up < 8) = true := by simp; omega
    rw [e2, e3, e5, if_neg (by omega)]
    simp [hr]

theorem lastMask_testBit (x el r : Nat) (hel : el < 8) :
    (x &&& (255 >>> (7 - el))).testBit r = (x.testBit r && decide (r ≤ el)) := by
  rw [Nat.testBit_and, testBit_255_shiftRight]
  congr 1
  exact decide_eq_decide.mpr (by omega)

theorem writeBits_bitAt_below (st : BStream) (n src : Nat) (h0 : 0 < n)
    (hw : n + st.bitNum ≤ st.maxWriteBitNum)
    (hL : (n + st.bitNum - 1) / 8 < st.data.length)
    (i : Nat) (hi : i < st.bitNum) :
    bitAt (writeBits n src st).data i = bitAt st.data i := by
  unfold bitAt
  rcases Nat.lt_or_ge (i / 8) (st.bitNum / 8) with hb | hb
  · rw [writeBits_data_getD st n src h0 hw _ (Or.inl hb)]
  · have hbeq : i / 8 = st.bitNum / 8 := by omega
    have hr : i % 8 < st.bitNum % 8 := by omega
    rw [hbeq]
    rcases Nat.lt_or_ge (st.bitNum / 8) ((n + st.bitNum - 1) / 8) with hne | hge
    · rw [writeBits_byte_start st n src h0 hw (by omega) hne]
      rw [start_byte_testBit _ _ _ _ (by omega) (by omega), if_pos hr]
    · have heq : st.bitNum / 8 = (n + st.bitNum - 1) / 8 := by omega
      rw [writeBits_byte_start_single st n src h0 hw (by omega) heq]
      rw [lastMask_testBit _ _ _ (by omega),
        start_byte_testBit _ _ _ _ (by omega) (by omega), if_pos hr]
      have e1 : decide (i % 8 ≤ (st.bitNum + n - 1) % 8) = true := by
        simp only [decide_eq_true_eq]
        omega
      rw [e1, Bool.and_true]

theorem writeBits_bitAt_in (st : BStream) (n src : Nat) (h0 : 0 < n)
    (hw : n + st.bitNum ≤ st.maxWriteBitNum)
    (hL : (n + st.bitNum - 1) / 8 < st.data.length)
    (i : Nat) (hi1 : st.bitNum ≤ i) (hi2 : i < st.bitNum + n) :
    bitAt (writeBits n src st).data i = src.testBit (i - st.bitNum) := by
  unfold bitAt
  have hble : st.bitNum / 8 ≤ i / 8 := by omega
  have hbge : i / 8 ≤ (n + st.bitNum - 1) / 8 := by omega
  rcases Nat.eq_or_lt_of_le hble with hbs | hbs
  · -- first touched byte
    rw [← hbs]
    have hrge : st.bitNum % 8 ≤ i % 8 := by omega
    rcases Nat.lt_or_ge (st.bitNum / 8) ((n + st.bitNum - 1) / 8) with hne | hge
    · rw [writeBits_byte_start st n src h0 hw (by omega) hne]
      rw [start_byte_testBit _ _ _ _ (by omega) (by omega), if_neg (by omega)]
      congr 1
      omega
    · have heq : st.bitNum / 8 = (n + st.bitNum - 1) / 8 := by omega
      rw [writeBits_byte_start_single st n src h0 hw (by omega) heq]
      rw [lastMask_testBit _ _ _ (by omega),
        start_byte_testBit _ _ _ _ (by omega) (by omega), if_neg (by omega)]
      have e1 : decide (i % 8 ≤ (st.bitNum + n - 1) % 8) = true := by
        simp only [decide_eq_true_eq]
        omega
      rw [e1, Bool.and_true]
      congr 1
      omega
  · rcases Nat.eq_or_lt_of_le hbge with hbe | hbe
    · -- last touched byte, beyond the first
      rw [hbe, writeBits_byte_end st n src h0 hw (by omega) hL]
      rw [lastMask_testBit _ _ _ (by omega),
        loop_byte_testBit _ _ _ _ (by omega) (by omega) (by omega)]
      have e1 : decide (i % 8 ≤ (st.bitNum + n - 1) % 8) = true := by
        simp only [decide_eq_true_eq]
        omega
      rw [e1, Bool.and_true]
      congr 1
      omega
    · -- middle byte
      rw [writeBits_byte_mid st n src h0 hw _ hbs hbe (by omega)]
      rw [show (i / 8 - st.bitNum / 8 - 1) = (i / 8 - st.bitNum / 8) - 1 from rfl,
        loop_byte_testBit _ _ _ _ (by omega) (by omega) (by omega)]
      congr 1
      omega

theorem writeBits_bitAt_tail (st : BStream) (n src : Nat) (h0 : 0 < n)
    (hw : n + st.bitNum ≤ st.maxWriteBitNum)
    (hL : (n + st.bitNum - 1) / 8 < st.data.length)
    (i : Nat) (hi1 : st.bitNum + n ≤ i) (hi2 : i / 8 ≤ (n + st.bitNum - 1) / 8) :
    bitAt (writeBits n src st).data i = false := by
  unfold bitAt
  have hbe : i / 8 = (n + st.bitNum - 1) / 8 := by omega
  have hrl : ¬ (i % 8 ≤ (st.bitNum + n - 1) % 8) := by omega
  rcases Nat.lt_or_ge (st.bitNum / 8) ((n + st.bitNum - 1) / 8) with hne | hge
  · rw [hbe, writeBits_byte_end st n src h0 hw hne hL,
      lastMask_testBit _ _ _ (by omega)]
    rw [decide_eq_false hrl, Bool.and_false]
  · have heq : st.bitNum / 8 = (n + st.bitNum - 1) / 8 := by omega
    rw [hbe, ← heq, writeBits_byte_start_single st n src h0 hw (by omega) heq,
      lastMask_testBit _ _ _ (by omega)]
    rw [decide_eq_false hrl, Bool.and_false]

theorem writeBits_bitAt_far (st : BStream) (n src : Nat) (h0 : 0 < n)
    (hw : n + st.bitNum ≤ st.maxWriteBitNum)
    (i : Nat) (hi : (n + st.bitNum - 1) / 8 < i / 8) :
    bitAt (writeBits n src st).data i = bitAt st.data i := by
  unfold bitAt
  rw [writeBits_data_getD st n src h0 hw _ (Or.inr hi)]

/-! ## `writeFlag` characterization -/

theorem writeFlag_fields (st : BStream) (v : Bool) :
    (writeFlag v st).2.maxReadBitNum = st.maxReadBitNum ∧
    (writeFlag v st).2.maxWriteBitNum = st.maxWriteBitNum ∧
    (writeFlag v st).2.bufSize = st.bufSize ∧
    (writeFlag v st).2.mCompressPoint = st.mCompressPoint ∧
    (writeFlag v st).2.stringBuffer = st.stringBuffer := by
  rw [writeFlag]
  split <;> exact ⟨rfl, rfl, rfl, rfl, rfl⟩

theorem writeFlag_length (st : BStream) (v : Bool) :
    (writeFlag v st).2.data.length = st.data.length := by
  rw [writeFlag]
  split
  · rfl
  · simp only [List.length_set]

theorem writeFlag_success (st : BStream) (v : Bool)
    (hw : st.bitNum + 1 ≤ st.maxWriteBitNum) :
    (writeFlag v st).1 = v ∧ (writeFlag v st).2.bitNum = st.bitNum + 1 ∧
    (writeFlag v st).2.error = st.error := by
  have h : ¬ st.maxWriteBitNum < st.bitNum + 1 := by omega
  rw [writeFlag, if_neg h]
  exact ⟨rfl, rfl, rfl⟩

theorem writeFlag_bitAt (st : BStream) (v : Bool)
    (hw : st.bitNum + 1 ≤ st.maxWriteBitNum)
    (hLs : st.bitNum / 8 < st.data.length) (i : Nat) :
    bitAt (writeFlag v st).2.data i =
      if i = st.bitNum then v else bitAt st.data i := by
  have h : ¬ st.maxWriteBitNum < st.bitNum + 1 := by omega
  rw [writeFlag, if_neg h]
  unfold bitAt
  simp only
  rcases Nat.decEq (i / 8) (st.bitNum / 8) with hb | hb
  · rw [getD_set_ne _ _ (fun hc => hb hc.symm)]
    rw [if_neg (by omega)]
  · rw [hb, getD_set_self _ hLs]
    cases v with
    | true =>
      rw [if_pos rfl, testBit_mod256, Nat.testBit_or, testBit_one_shiftLeft]
      rcases Nat.decEq i st.bitNum with hi | hi
      · rw [if_neg hi]
        have e : decide (i % 8 = st.bitNum % 8) = false := by
          simp only [decide_eq_false_iff_not]
          omega
        rw [e]
        simp [Nat.mod_lt i (show 0 < 8 from by norm_num)]
      · rw [hi, if_pos rfl, decide_eq_true (show st.bitNum % 8 < 8 from by omega)]
        simp
    | false =>
      rw [if_neg Bool.false_ne_true, Nat.testBit_and, Nat.testBit_xor, testBit_one_shiftLeft,
        show (255 : Nat) = 2 ^ 8 - 1 from by norm_num, Nat.testBit_two_pow_sub_one]
      rcases Nat.decEq i st.bitNum with hi | hi
      · rw [if_neg hi]
        have e1 : decide (i % 8 = st.bitNum % 8) = false := by
          simp only [decide_eq_false_iff_not]
          omega
        have e2 : decide (i % 8 < 8) = true := by
          simp only [decide_eq_true_eq]
          omega
        rw [e1, e2]
        simp
      · rw [hi, if_pos rfl,
          decide_eq_true (show st.bitNum % 8 < 8 from by omega),
          decide_eq_true (show st.bitNum % 8 = st.bitNum % 8 from rfl)]
        simp

/-! ## Preservation of the byte bound -/

theorem bytesLt_set {l : List Nat} (h : bytesLt l) {a : Nat} (ha : a < 256)
    (i : Nat) : bytesLt (l.set i a) := by
  intro b hb
  rcases List.mem_or_eq_of_mem_set hb with hb | hb
  · exact h b hb
  · omega

theorem wbLoop_bytesLt (src up down : Nat) :
    ∀ (m curB sIdx pos : Nat) (data : List Nat), bytesLt data →
      bytesLt (wbLoop src up down curB sIdx pos data m) := by
  intro m
  induction m with
  | zero => intro _ _ _ data h; exact h
  | succ k ih =>
    intro curB sIdx pos data h
    rw [wbLoop]
    exact ih _ _ _ _ (bytesLt_set h (Nat.mod_lt _ (by norm_num)) _)

theorem writeBits_bytesLt (st : BStream) (n src : Nat) (h : bytesLt st.data) :
    bytesLt (writeBits n src st).data := by
  rw [writeBits]
  split
  · exact h
  split
  · exact h
  have hmask : ∀ x : Nat, x &&& 255 >>> (7 - (st.bitNum + n - 1) % 8) < 256 := by
    intro x
    have ha : x &&& 255 >>> (7 - (st.bitNum + n - 1) % 8) ≤
        255 >>> (7 - (st.bitNum + n - 1) % 8) := Nat.and_le_right
    have hb : (255 : Nat) >>> (7 - (st.bitNum + n - 1) % 8) ≤ 255 := by
      rw [Nat.shiftRight_eq_div_pow]
      exact Nat.div_le_self _ _
    omega
  refine bytesLt_set (wbLoop_bytesLt _ _ _ _ _ _ _ _ ?_) (hmask _) _
  exact bytesLt_set h (Nat.mod_lt _ (by norm_num)) _

theorem writeFlag_bytesLt (st : BStream) (v : Bool) (h : bytesLt st.data) :
    bytesLt (writeFlag v st).2.data := by
  rw [writeFlag]
  split
  · exact h
  simp only
  refine bytesLt_set h ?_ _
  cases v with
  | true =>
    rw [if_pos rfl]
    exact Nat.mod_lt _ (by norm_num)
  | false =>
    rw [if_neg Bool.false_ne_true]
    have h1 : st.data.getD (st.bitNum / 8) 0 &&& (255 ^^^ (1 <<< (st.bitNum % 8))) ≤
        255 ^^^ (1 <<< (st.bitNum % 8)) := Nat.and_le_right
    have h2 : (255 : Nat) ^^^ (1 <<< (st.bitNum % 8)) < 256 := by
      have hx : (255 : Nat) < 2 ^ 8 := by norm_num
      have hy : (1 <<< (st.bitNum % 8)) < 2 ^ 8 := by
        rw [Nat.shiftLeft_eq, Nat.one_mul]
        exact Nat.pow_lt_pow_right (by norm_num) (by omega)
      have := Nat.xor_lt_two_pow hx hy
      omega
    omega

/-! ## Read-side characterization -/

theorem natOfBytes_lt : ∀ (l : List Nat), bytesLt l →
    natOfBytes l < 2 ^ (8 * l.length) := by
  intro l
  induction l with
  | nil => intro _; norm_num [natOfBytes]
  | cons b rest ih =>
    intro h
    have hb : b < 256 := h b (by simp)
    have hr := ih (fun x hx => h x (by simp [hx]))
    rw [natOfBytes, List.length_cons]
    have e : 8 * (rest.length + 1) = 8 * rest.length + 8 := by ring
    rw [e, pow_add]
    have : (2 : Nat) ^ 8 = 256 := by norm_num
    rw [this]
    nlinarith

theorem testBit_natOfBytes : ∀ (l : List Nat), bytesLt l → ∀ j,
    (natOfBytes l).testBit j = bitAt l j := by
  intro l
  induction l with
  | nil =>
    intro _ j
    simp [natOfBytes, bitAt]
  | cons b rest ih =>
    intro hB j
    have hb : b < 256 := hB b (by simp)
    have hrest : bytesLt rest := fun x hx => hB x (by simp [hx])
    rcases Nat.lt_or_ge j 8 with hj | hj
    · have e : (natOfBytes (b :: rest)) % 2 ^ 8 = b := by
        rw [natOfBytes, show (2:Nat)^8 = 256 from by norm_num,
          Nat.add_mul_mod_self_left]
        exact Nat.mod_eq_of_lt hb
      have e2 := Nat.testBit_mod_two_pow (natOfBytes (b :: rest)) 8 j
      rw [e, decide_eq_true hj, Bool.true_and] at e2
      rw [← e2, bitAt, Nat.div_eq_of_lt hj, Nat.mod_eq_of_lt hj,
        List.getD_cons_zero]
    · have ed : natOfBytes (b :: rest) >>> 8 = natOfBytes rest := by
        rw [natOfBytes, Nat.shiftRight_eq_div_pow,
          show (2:Nat)^8 = 256 from by norm_num, Nat.add_mul_div_left _ _
            (by norm_num : (0:Nat) < 256), Nat.div_eq_of_lt hb, Nat.zero_add]
      have e2 : (natOfBytes (b :: rest) >>> 8).testBit (j - 8) =
          (natOfBytes (b :: rest)).testBit (8 + (j - 8)) :=
        Nat.testBit_shiftRight _
      rw [ed, show 8 + (j - 8) = j from by omega] at e2
      rw [← e2, ih hrest (j - 8), bitAt, bitAt]
      rw [show j / 8 = (j - 8) / 8 + 1 from by omega, List.getD_cons_succ,
        show (j - 8) % 8 = j % 8 from by omega]

theorem read_byte_testBit (data : List Nat) (hB : bytesLt data) (q down r : Nat)
    (hdown : down < 8) (hr : r < 8) :
    (((data.getD q 0 >>> down) ||| (data.getD (q + 1) 0 <<< (8 - down))) % 256).testBit r =
      bitAt data (8 * q + down + r) := by
  rw [testBit_mod256, Nat.testBit_or, Nat.testBit_shiftRight, Nat.testBit_shiftLeft,
    decide_eq_true hr, Bool.true_and]
  rcases Nat.lt_or_ge (down + r) 8 with h | h
  · have e1 : decide (8 - down ≤ r) = false := by
      simp only [decide_eq_false_iff_not]
      omega
    rw [e1, Bool.false_and, Bool.or_false, bitAt,
      show (8 * q + down + r) / 8 = q from by omega,
      show (8 * q + down + r) % 8 = down + r from by omega]
  · have e1 : decide (8 - down ≤ r) = true := by
      simp only [decide_eq_true_eq]
      omega
    have e2 : (data.getD q 0).testBit (down + r) = false :=
      testBit_ge_8 (bytesLt_getD hB q) h
    rw [e1, Bool.true_and, e2, Bool.false_or, bitAt,
      show (8 * q + down + r) / 8 = q + 1 from by omega,
      show (8 * q + down + r) % 8 = r - (8 - down) from by omega]

theorem rbLoop_length (data : List Nat) (down up : Nat) :
    ∀ (m curB pos : Nat) (dst : List Nat) (dstIdx : Nat),
      (rbLoop data down up curB pos dst dstIdx m).length = dst.length := by
  intro m
  induction m with
  | zero => intro _ _ _ _; rfl
  | succ j ih =>
    intro curB pos dst dstIdx
    rw [rbLoop, ih, List.length_set]

theorem rbLoop_bytesLt (data : List Nat) (down up : Nat) :
    ∀ (m curB pos : Nat) (dst : List Nat) (dstIdx : Nat), bytesLt dst →
      bytesLt (rbLoop data down up curB pos dst dstIdx m) := by
  intro m
  induction m with
  | zero => intro _ _ _ _ h; exact h
  | succ j ih =>
    intro curB pos dst dstIdx h
    rw [rbLoop]
    exact ih _ _ _ _ (bytesLt_set h (Nat.mod_lt _ (by norm_num)) _)

theorem rbLoop_getD_lt (data : List Nat) (down up : Nat) :
    ∀ (m curB pos : Nat) (dst : List Nat) (dstIdx b : Nat), b < dstIdx →
      (rbLoop data down up curB pos dst dstIdx m).getD b 0 = dst.getD b 0 := by
  intro m
  induction m with
  | zero => intro _ _ _ _ _ _; rfl
  | succ j ih =>
    intro curB pos dst dstIdx b hb
    rw [rbLoop, ih _ _ _ _ _ (by omega)]
    exact getD_set_ne _ _ (by omega)

theorem rbLoop_getD_ge (data : List Nat) (down up : Nat) :
    ∀ (m curB pos : Nat) (dst : List Nat) (dstIdx b : Nat), dstIdx + m ≤ b →
      (rbLoop data down up curB pos dst dstIdx m).getD b 0 = dst.getD b 0 := by
  intro m
  induction m with
  | zero => intro _ _ _ _ _ _; rfl
  | succ j ih =>
    intro curB pos dst dstIdx b hb
    rw [rbLoop, ih _ _ _ _ _ (by omega)]
    exact getD_set_ne _ _ (by omega)

theorem rbLoop_getD_mid (data : List Nat) (down up : Nat) :
    ∀ (m curB pos : Nat) (dst : List Nat) (dstIdx b : Nat),
      curB = data.getD pos 0 → dstIdx ≤ b → b < dstIdx + m → b < dst.length →
      (rbLoop data down up curB pos dst dstIdx m).getD b 0 =
        ((data.getD (pos + (b - dstIdx)) 0 >>> down) |||
          (data.getD (pos + (b - dstIdx) + 1) 0 <<< up)) % 256 := by
  intro m
  induction m with
  | zero => intro _ _ _ _ _ _ h1 h2; omega
  | succ j ih =>
    intro curB pos dst dstIdx b hc hb1 hb2 hbL
    rw [rbLoop]
    rcases Nat.eq_or_lt_of_le hb1 with hb0 | hb0
    · subst hb0
      rw [rbLoop_getD_lt data down up j _ _ _ _ _ (by omega)]
      rw [getD_set_self _ hbL, hc]
      simp
    · rw [ih _ (pos + 1) _ (dstIdx + 1) b rfl (by omega) (by omega)
        (by rw [List.length_set]; omega)]
      rw [show pos + 1 + (b - (dstIdx + 1)) = pos + (b - dstIdx) from by omega]

theorem readBits_fst (st : BStream) (k : Nat) (dst : List Nat) (hk : 0 < k)
    (hr : k + st.bitNum ≤ st.maxReadBitNum) :
    (readBits k st dst).1 = { st with bitNum := st.bitNum + k } := by
  have h1 : ¬ k = 0 := by omega
  have h2 : ¬ (st.maxReadBitNum < k + st.bitNum) := by omega
  rw [readBits, if_neg h1, if_neg h2]

theorem readBits_val_testBit (st : BStream) (k : Nat) (hk : 0 < k)
    (hk32 : k ≤ 32) (hr : k + st.bitNum ≤ st.maxReadBitNum)
    (hB : bytesLt st.data) (j : Nat) :
    (natOfBytes (readBits k st [0, 0, 0, 0]).2).testBit j =
      (decide (j < 8 * ((k + 7) / 8)) && bitAt st.data (st.bitNum + j)) := by
  have h1 : ¬ k = 0 := by omega
  have h2 : ¬ (st.maxReadBitNum < k + st.bitNum) := by omega
  rw [readBits, if_neg h1, if_neg h2]
  simp only
  have hz : bytesLt [0, 0, 0, 0] := by
    intro b hb
    simp at hb
    omega
  rw [testBit_natOfBytes _ (rbLoop_bytesLt _ _ _ _ _ _ _ _ hz) j]
  unfold bitAt
  rcases Nat.lt_or_ge (j / 8) ((k + 7) / 8) with hj | hj
  · rw [rbLoop_getD_mid st.data _ _ _ _ _ _ _ _ rfl (Nat.zero_le _) (by omega)
      (by simp; omega)]
    rw [Nat.sub_zero]
    rw [read_byte_testBit st.data hB _ _ _ (by omega) (by omega)]
    unfold bitAt
    rw [show 8 * (st.bitNum / 8 + j / 8) + st.bitNum % 8 + j % 8 =
        st.bitNum + j from by omega,
      decide_eq_true (show j < 8 * ((k + 7) / 8) from by omega), Bool.true_and]
  · have hz0 : ∀ i : Nat, ([0, 0, 0, 0] : List Nat).getD i 0 = 0 := by
      intro i
      match i with
      | 0 => rfl
      | 1 => rfl
      | 2 => rfl
      | 3 => rfl
      | m + 4 => rfl
    have hz4 : (rbLoop st.data (st.bitNum % 8) (8 - st.bitNum % 8)
        (st.data.getD (st.bitNum / 8) 0) (st.bitNum / 8) [0, 0, 0, 0] 0
        ((k + 7) / 8)).getD (j / 8) 0 = 0 := by
      rcases Nat.lt_or_ge (j / 8) 4 with hj4 | hj4
      · rw [rbLoop_getD_ge _ _ _ _ _ _ _ _ _ (by omega), hz0]
      · refine List.getD_eq_default _ _ ?_
        rw [rbLoop_length]
        simpa using hj4
    rw [hz4, decide_eq_false (show ¬ j < 8 * ((k + 7) / 8) from by omega),
      Nat.zero_testBit, Bool.false_and]

theorem readInt_eq (st : BStream) (k : Nat) (val : Nat) (hk : 0 < k)
    (hk32 : k < 32) (hr : k + st.bitNum ≤ st.maxReadBitNum)
    (hB : bytesLt st.data) (hval : val < 2 ^ k)
    (hbits : ∀ j, j < k → bitAt st.data (st.bitNum + j) = val.testBit j) :
    readInt k st = ((val : Int), { st with bitNum := st.bitNum + k }) := by
  rw [readInt]
  rw [if_neg (by omega)]
  rw [readBits_fst st k _ hk hr]
  have hv : natOfBytes (readBits k st [0, 0, 0, 0]).2 &&& ((1 <<< k) - 1) = val := by
    refine Nat.eq_of_testBit_eq (fun j => ?_)
    rw [Nat.testBit_and, Nat.shiftLeft_eq, Nat.one_mul,
      Nat.testBit_two_pow_sub_one,
      readBits_val_testBit st k hk (by omega) hr hB j]
    rcases Nat.lt_or_ge j k with hj | hj
    · rw [decide_eq_true (show j < 8 * ((k + 7) / 8) from by omega),
        decide_eq_true hj, Bool.true_and, Bool.and_true]
      exact hbits j hj
    · rw [decide_eq_false (show ¬ j < k from by omega), Bool.and_false]
      exact (Nat.testBit_lt_two_pow
        (Nat.lt_of_lt_of_le hval (Nat.pow_le_pow_right (by norm_num) hj))).symm
  rw [hv]

theorem readBits32_natOfBytes (st : BStream) (val : Nat)
    (hr : 32 + st.bitNum ≤ st.maxReadBitNum) (hB : bytesLt st.data)
    (hval : val < 2 ^ 32)
    (hbits : ∀ j, j < 32 → bitAt st.data (st.bitNum + j) = val.testBit j) :
    natOfBytes (readBits 32 st [0, 0, 0, 0]).2 = val := by
  refine Nat.eq_of_testBit_eq (fun j => ?_)
  rw [readBits_val_testBit st 32 (by norm_num) (by norm_num) hr hB j]
  rcases Nat.lt_or_ge j 32 with hj | hj
  · rw [decide_eq_true (show j < 8 * ((32 + 7) / 8) from by omega), Bool.true_and]
    exact hbits j hj
  · rw [decide_eq_false (show ¬ j < 8 * ((32 + 7) / 8) from by omega),
      Bool.false_and]
    exact (Nat.testBit_lt_two_pow
      (Nat.lt_of_lt_of_le hval (Nat.pow_le_pow_right (by norm_num) hj))).symm

theorem readFlag_eq (st : BStream) (hr : st.bitNum + 1 ≤ st.maxReadBitNum) :
    readFlag st = (bitAt st.data st.bitNum, { st with bitNum := st.bitNum + 1 }) := by
  rw [readFlag, if_neg (by omega)]
  rfl

/-! ## Roundtrip building blocks -/

theorem writeInt_nat (st : BStream) (n val : Nat) (hv32 : val < 2 ^ 32) :
    writeInt (val : Int) n st = writeBits n val st := by
  rw [writeInt]
  congr 1
  have h1 : ((val : Int) % (2 ^ 32 : Int)) = (val : Int) := by
    refine Int.emod_eq_of_lt (by positivity) ?_
    exact_mod_cast hv32
  rw [h1, Int.toNat_natCast]

theorem writeInt_core (st : BStream) (n val : Nat) (h0 : 0 < n)
    (_hval : val < 2 ^ n) (hv32 : val < 2 ^ 32)
    (hw : st.bitNum + n ≤ st.maxWriteBitNum)
    (hLw : st.maxWriteBitNum ≤ 8 * st.data.length)
    (hB : bytesLt st.data) :
    (writeInt (val : Int) n st).bitNum = st.bitNum + n ∧
    (writeInt (val : Int) n st).maxReadBitNum = st.maxReadBitNum ∧
    (writeInt (val : Int) n st).maxWriteBitNum = st.maxWriteBitNum ∧
    (writeInt (val : Int) n st).bufSize = st.bufSize ∧
    (writeInt (val : Int) n st).mCompressPoint = st.mCompressPoint ∧
    (writeInt (val : Int) n st).stringBuffer = st.stringBuffer ∧
    (writeInt (val : Int) n st).error = st.error ∧
    (writeInt (val : Int) n st).data.length = st.data.length ∧
    bytesLt (writeInt (val : Int) n st).data ∧
    (∀ i, i < st.bitNum → bitAt (writeInt (val : Int) n st).data i = bitAt st.data i) ∧
    (∀ j, j < n → bitAt (writeInt (val : Int) n st).data (st.bitNum + j) =
      val.testBit j) := by
  rw [writeInt_nat st n val hv32]
  have hw2 : n + st.bitNum ≤ st.maxWriteBitNum := by omega
  have hL : (n + st.bitNum - 1) / 8 < st.data.length := by omega
  obtain ⟨f1, f2, f3, f4, f5⟩ := writeBits_fields st n val
  refine ⟨writeBits_bitNum st n val h0 hw2, f1, f2, f3, f4, f5,
    writeBits_error st n val h0 hw2, writeBits_length st n val,
    writeBits_bytesLt st n val hB, ?_, ?_⟩
  · intro i hi
    exact writeBits_bitAt_below st n val h0 hw2 hL i hi
  · intro j hj
    rw [writeBits_bitAt_in st n val h0 hw2 hL (st.bitNum + j) (by omega) (by omega)]
    congr 1
    omega

theorem writeSignedInt_eq (st : BStream) (n : Nat) (v : Int)
    (hw1 : st.bitNum + 1 ≤ st.maxWriteBitNum) :
    writeSignedInt v n st =
      writeInt ((v.natAbs : Nat) : Int) (n - 1) (writeFlag (decide (v < 0)) st).2 := by
  obtain ⟨hp1, _, _⟩ := writeFlag_success st (decide (v < 0)) hw1
  simp only [writeSignedInt]
  rw [hp1]
  by_cases hv : v < 0
  · rw [if_pos (by simp [hv])]
    congr 1
    omega
  · rw [if_neg (by simp [hv])]
    congr 1
    omega

theorem writeSignedInt_core (st : BStream) (n : Nat) (v : Int)
    (hn1 : 2 ≤ n) (hn2 : n ≤ 32) (hmag : v.natAbs < 2 ^ (n - 1))
    (hw : st.bitNum + n ≤ st.maxWriteBitNum)
    (hLw : st.maxWriteBitNum ≤ 8 * st.data.length)
    (hB : bytesLt st.data) :
    (writeSignedInt v n st).bitNum = st.bitNum + n ∧
    (writeSignedInt v n st).maxReadBitNum = st.maxReadBitNum ∧
    (writeSignedInt v n st).maxWriteBitNum = st.maxWriteBitNum ∧
    (writeSignedInt v n st).bufSize = st.bufSize ∧
    (writeSignedInt v n st).mCompressPoint = st.mCompressPoint ∧
    (writeSignedInt v n st).stringBuffer = st.stringBuffer ∧
    (writeSignedInt v n st).error = st.error ∧
    (writeSignedInt v n st).data.length = st.data.length ∧
    bytesLt (writeSignedInt v n st).data ∧
    (∀ i, i < st.bitNum → bitAt (writeSignedInt v n st).data i = bitAt st.data i) ∧
    bitAt (writeSignedInt v n st).data st.bitNum = decide (v < 0) ∧
    (∀ j, j < n - 1 → bitAt (writeSignedInt v n st).data (st.bitNum + 1 + j) =
      (v.natAbs).testBit j) := by
  have hw1 : st.bitNum + 1 ≤ st.maxWriteBitNum := by omega
  rw [writeSignedInt_eq st n v hw1]
  obtain ⟨g1, g2, g3, g4, g5⟩ := writeFlag_fields st (decide (v < 0))
  obtain ⟨_, q2, q3⟩ := writeFlag_success st (decide (v < 0)) hw1
  have hLs : st.bitNum / 8 < st.data.length := by omega
  have hlen1 : (writeFlag (decide (v < 0)) st).2.data.length = st.data.length :=
    writeFlag_length st _
  have hB1 : bytesLt (writeFlag (decide (v < 0)) st).2.data :=
    writeFlag_bytesLt st _ hB
  have hmag32 : v.natAbs < 2 ^ 32 :=
    Nat.lt_of_lt_of_le hmag (Nat.pow_le_pow_right (by norm_num) (by omega))
  have hwI : (writeFlag (decide (v < 0)) st).2.bitNum + (n - 1) ≤
      (writeFlag (decide (v < 0)) st).2.maxWriteBitNum := by
    rw [q2, g2]
    omega
  have hLwI : (writeFlag (decide (v < 0)) st).2.maxWriteBitNum ≤
      8 * (writeFlag (decide (v < 0)) st).2.data.length := by
    rw [g2, hlen1]
    exact hLw
  obtain ⟨c1, c2, c3, c4, c5, c6, c7, c8, c9, c10, c11⟩ :=
    writeInt_core (writeFlag (decide (v < 0)) st).2 (n - 1) v.natAbs
      (by omega) hmag hmag32 hwI hLwI hB1
  refine ⟨by rw [c1, q2]; omega, by rw [c2, g1], by rw [c3, g2], by rw [c4, g3],
    by rw [c5, g4], by rw [c6, g5], by rw [c7, q3], by rw [c8, hlen1], c9,
    ?_, ?_, ?_⟩
  · intro i hi
    rw [c10 i (by omega), writeFlag_bitAt st _ hw1 hLs i, if_neg (by omega)]
  · rw [c10 st.bitNum (by omega), writeFlag_bitAt st _ hw1 hLs st.bitNum,
      if_pos rfl]
  · intro j hj
    have := c11 j hj
    rw [q2] at this
    rw [show st.bitNum + 1 + j = st.bitNum + 1 + j from rfl]
    exact this

theorem readSignedInt_of_bits (rd : BStream) (n : Nat) (v : Int)
    (hn1 : 2 ≤ n) (hn2 : n ≤ 32) (hmag : v.natAbs < 2 ^ (n - 1))
    (hr : rd.bitNum + n ≤ rd.maxReadBitNum) (hB : bytesLt rd.data)
    (hflag : bitAt rd.data rd.bitNum = decide (v < 0))
    (hbits : ∀ j, j < n - 1 → bitAt rd.data (rd.bitNum + 1 + j) =
      (v.natAbs).testBit j) :
    readSignedInt n rd = (v, { rd with bitNum := rd.bitNum + n }) := by
  have hr1 : rd.bitNum + 1 ≤ rd.maxReadBitNum := by omega
  simp only [readSignedInt]
  rw [readFlag_eq rd hr1]
  have hread := readInt_eq ({ rd with bitNum := rd.bitNum + 1}) (n - 1) v.natAbs
    (by omega) (by omega) (by simp; omega) (by simpa using hB) hmag
    (by
      intro j hj
      simpa using hbits j hj)
  simp only at hread ⊢
  rw [hread]
  simp only
  rw [hflag]
  by_cases hv : v < 0
  · rw [if_pos (by simp [hv])]
    have e1 : -((v.natAbs : Nat) : Int) = v := by omega
    rw [e1]
    congr 1
    simp
    omega
  · rw [if_neg (by simp [hv])]
    have e1 : ((v.natAbs : Nat) : Int) = v := by omega
    rw [e1]
    congr 1
    simp
    omega

/-! ## Error monotonicity of the individual operations -/

theorem writeBits_error_mono (st : BStream) (n src : Nat) (h : st.error = true) :
    (writeBits n src st).error = true := by
  rw [writeBits]
  split
  · exact h
  split
  · rfl
  · exact h

theorem readBits_error_mono (st : BStream) (n : Nat) (dst : List Nat)
    (h : st.error = true) : (readBits n st dst).1.error = true := by
  rw [readBits]
  split
  · exact h
  split
  · rfl
  · exact h

theorem writeFlag_error_mono (st : BStream) (b : Bool) (h : st.error = true) :
    (writeFlag b st).2.error = true := by
  rw [writeFlag]
  split
  · rfl
  · exact h

theorem readFlag_error_mono (st : BStream) (h : st.error = true) :
    (readFlag st).2.error = true := by
  rw [readFlag]
  split
  · rfl
  · exact h

theorem writeInt_error_mono (st : BStream) (v : Int) (n : Nat)
    (h : st.error = true) : (writeInt v n st).error = true :=
  writeBits_error_mono st n _ h

theorem readInt_error_mono (st : BStream) (n : Nat) (h : st.error = true) :
    (readInt n st).2.error = true := by
  simp only [readInt]
  split <;> exact readBits_error_mono st n _ h

theorem writeSignedInt_error_mono (st : BStream) (v : Int) (n : Nat)
    (h : st.error = true) : (writeSignedInt v n st).error = true := by
  simp only [writeSignedInt]
  split <;> exact writeInt_error_mono _ _ _ (writeFlag_error_mono st _ h)

theorem readSignedInt_error_mono (st : BStream) (n : Nat)
    (h : st.error = true) : (readSignedInt n st).2.error = true := by
  simp only [readSignedInt]
  split <;> exact readInt_error_mono _ _ (readFlag_error_mono st h)

theorem writeFloat_error_mono (st : BStream) (f : ℝ) (n : Nat)
    (h : st.error = true) : (writeFloat f n st).error = true :=
  writeInt_error_mono st _ n h

theorem readFloat_error_mono (st : BStream) (n : Nat) (h : st.error = true) :
    (readFloat n st).2.error = true :=
  readInt_error_mono st n h

theorem writeSignedFloat_error_mono (st : BStream) (f : ℝ) (n : Nat)
    (h : st.error = true) : (writeSignedFloat f n st).error = true :=
  writeInt_error_mono st _ n h

theorem readSignedFloat_error_mono (st : BStream) (n : Nat)
    (h : st.error = true) : (readSignedFloat n st).2.error = true :=
  readInt_error_mono st n h

theorem writeNormalVector_error_mono (matan : ℝ → ℝ → ℝ) (st : BStream)
    (q : Point3R) (n : Nat) (h : st.error = true) :
    (writeNormalVector matan q n st).error = true :=
  writeSignedFloat_error_mono _ _ _ (writeSignedFloat_error_mono _ _ _ h)

theorem readNormalVector_error_mono (st : BStream) (n : Nat)
    (h : st.error = true) : (readNormalVector n st).2.error = true :=
  readSignedFloat_error_mono _ _ (readSignedFloat_error_mono _ _ h)

theorem writeCompressedPoint_error_mono (enc : ℝ → Nat) (st : BStream)
    (q : Point3R) (sc : ℝ) (h : st.error = true) :
    (writeCompressedPoint enc q sc st).error = true := by
  simp only [writeCompressedPoint]
  split
  · exact writeSignedInt_error_mono _ _ _ (writeSignedInt_error_mono _ _ _
      (writeSignedInt_error_mono _ _ _ (writeInt_error_mono _ _ _ h)))
  · exact writeBits_error_mono _ _ _ (writeBits_error_mono _ _ _
      (writeBits_error_mono _ _ _ (writeInt_error_mono _ _ _ h)))

theorem readCompressedPoint_error_mono (dec : Nat → ℝ) (st : BStream)
    (sc : ℝ) (h : st.error = true) :
    (readCompressedPoint dec sc st).2.error = true := by
  simp only [readCompressedPoint]
  split
  · exact readBits_error_mono _ _ _ (readBits_error_mono _ _ _
      (readBits_error_mono _ _ _ (readInt_error_mono _ _ h)))
  · exact readSignedInt_error_mono _ _ (readSignedInt_error_mono _ _
      (readSignedInt_error_mono _ _ (readInt_error_mono _ _ h)))

theorem foldl_writeBits_error_mono (leaves : Nat → HuffLeaf) :
    ∀ (l : List Nat) (st : BStream), st.error = true →
      (l.foldl (fun acc b => writeBits (leaves b).numBits (leaves b).code acc)
        st).error = true := by
  intro l
  induction l with
  | nil => intro st h; exact h
  | cons a as ih =>
    intro st h
    exact ih _ (writeBits_error_mono _ _ _ h)

theorem writeHuffBuffer_error_mono (leaves : Nat → HuffLeaf) (st : BStream)
    (s : List Nat) (maxLen : Nat) (h : st.error = true) :
    (writeHuffBuffer leaves s maxLen st).error = true := by
  simp only [writeHuffBuffer]
  split <;> split <;>
    first
      | exact writeBits_error_mono _ _ _ (writeInt_error_mono _ _ _
          (writeFlag_error_mono _ _ h))
      | exact foldl_writeBits_error_mono leaves _ _ (writeInt_error_mono _ _ _
          (writeFlag_error_mono _ _ h))

theorem writeString_error_mono (leaves : Nat → HuffLeaf) (st : BStream)
    (s : List Nat) (maxLen : Nat) (h : st.error = true) :
    (writeString leaves s maxLen st).error = true := by
  rw [writeString]
  split
  · simp only
    split
    · exact writeHuffBuffer_error_mono _ _ _ _ (writeInt_error_mono _ _ _
        (writeFlag_error_mono _ _ h))
    · exact writeHuffBuffer_error_mono _ _ _ _ (writeFlag_error_mono _ _ h)
  · exact writeHuffBuffer_error_mono _ _ _ _ h

theorem writeNormalVectorAZ_error_mono (matan : ℝ → ℝ → ℝ) (st : BStream)
    (q : Point3R) (a z : Nat) (h : st.error = true) :
    (writeNormalVectorAZ matan q a z st).error = true := by
  simp only [writeNormalVectorAZ]
  split <;>
    exact writeSignedFloat_error_mono _ _ _ (writeSignedFloat_error_mono _ _ _ h)

theorem readNormalVectorAZ_error_mono (st : BStream) (a z : Nat)
    (h : st.error = true) : (readNormalVectorAZ a z st).2.error = true :=
  readSignedFloat_error_mono _ _ (readSignedFloat_error_mono _ _ h)

theorem writeVector_error_mono (matan : ℝ → ℝ → ℝ) (enc : ℝ → Nat)
    (st : BStream) (q : Point3R) (mn mx : ℝ) (mb ab zb : Nat)
    (h : st.error = true) :
    (writeVector matan enc q mn mx mb ab zb st).error = true := by
  simp only [writeVector]
  split
  · split
    · exact writeNormalVectorAZ_error_mono _ _ _ _ _
        (writeFloat_error_mono _ _ _ (writeFlag_error_mono _ _
          (writeFlag_error_mono _ _ h)))
    · exact writeNormalVectorAZ_error_mono _ _ _ _ _
        (writeBits_error_mono _ _ _ (writeFlag_error_mono _ _
          (writeFlag_error_mono _ _ h)))
  · exact writeFlag_error_mono _ _ h

theorem readVector_error_mono (dec : Nat → ℝ) (st : BStream) (mx : ℝ)
    (mb ab zb : Nat) (h : st.error = true) :
    (readVector dec mx mb ab zb st).2.error = true := by
  simp only [readVector]
  split
  · split
    · exact readNormalVectorAZ_error_mono _ _ _
        (readFloat_error_mono _ _ (readFlag_error_mono _
          (readFlag_error_mono _ h)))
    · exact readNormalVectorAZ_error_mono _ _ _
        (readBits_error_mono _ _ _ (readFlag_error_mono _
          (readFlag_error_mono _ h)))
  · exact readFlag_error_mono _ h

theorem writeAffineTransform_error_mono (enc : ℝ → Nat) (st : BStream)
    (p : Point3R) (qx qy qz qw : ℝ) (h : st.error = true) :
    (writeAffineTransform enc p qx qy qz qw st).error = true := by
  simp only [writeAffineTransform]
  exact writeFlag_error_mono _ _ (writeBits_error_mono _ _ _
    (writeBits_error_mono _ _ _ (writeBits_error_mono _ _ _
      (writeBits_error_mono _ _ _ (writeBits_error_mono _ _ _
        (writeBits_error_mono _ _ _ h))))))

theorem readAffineTransform_error_mono (dec : Nat → ℝ) (st : BStream)
    (h : st.error = true) : (readAffineTransform dec st).2.error = true := by
  simp only [readAffineTransform]
  exact readFlag_error_mono _ (readBits_error_mono _ _ _
    (readBits_error_mono _ _ _ (readBits_error_mono _ _ _
      (readBits_error_mono _ _ _ (readBits_error_mono _ _ _
        (readBits_error_mono _ _ _ h))))))

theorem huffWalk_error_mono (nodes : Nat → HuffNode) (symbols : Nat → Nat) :
    ∀ (fuel : Nat) (index : Int) (st : BStream) (r : Nat × BStream),
      huffWalk nodes symbols fuel index st = some r → st.error = true →
        r.2.error = true := by
  intro fuel
  induction fuel with
  | zero =>
    intro index st r hr _
    exact Option.noConfusion hr
  | succ m ih =>
    intro index st r hr h
    simp only [huffWalk] at hr
    split at hr
    · exact ih _ _ _ hr (readFlag_error_mono _ h)
    · simp only [Option.some.injEq] at hr
      subst hr
      exact h

theorem rhbLoop_error_mono (nodes : Nat → HuffNode) (symbols : Nat → Nat)
    (fuel : Nat) : ∀ (i : Nat) (st : BStream) (acc : List Nat)
      (r : List Nat × BStream), rhbLoop nodes symbols fuel i st acc = some r →
      st.error = true → r.2.error = true := by
  intro i
  induction i with
  | zero =>
    intro st acc r hr h
    simp only [rhbLoop, Option.some.injEq] at hr
    subst hr
    exact h
  | succ m ih =>
    intro st acc r hr h
    simp only [rhbLoop] at hr
    split at hr
    · exact Option.noConfusion hr
    · rename_i sym st2 heq
      exact ih st2 _ r hr
        (huffWalk_error_mono nodes symbols fuel 0 st (sym, st2) heq h)

theorem readHuffBuffer_error_mono (nodes : Nat → HuffNode)
    (symbols : Nat → Nat) (fuel : Nat) (st : BStream)
    (r : List Nat × BStream)
    (hr : readHuffBuffer nodes symbols fuel st = some r)
    (h : st.error = true) : r.2.error = true := by
  simp only [readHuffBuffer] at hr
  split at hr
  · exact rhbLoop_error_mono nodes symbols fuel _ _ _ r hr
      (readInt_error_mono _ _ (readFlag_error_mono _ h))
  · simp only [Option.some.injEq] at hr
    subst hr
    exact readBits_error_mono _ _ _ (readInt_error_mono _ _
      (readFlag_error_mono _ h))

theorem readString_error_mono (nodes : Nat → HuffNode) (symbols : Nat → Nat)
    (fuel : Nat) (st : BStream) (r : List Nat × BStream)
    (hr : readString nodes symbols fuel st = some r) (h : st.error = true) :
    r.2.error = true := by
  simp only [readString] at hr
  split at hr
  · rename_i scratch
    split at hr
    · split at hr
      · exact Option.noConfusion hr
      · rename_i sfx st2 heq
        simp only [Option.some.injEq] at hr
        subst hr
        exact readHuffBuffer_error_mono nodes symbols fuel _ (sfx, st2) heq
          (readInt_error_mono _ _ (readFlag_error_mono _ h))
    · split at hr
      · exact Option.noConfusion hr
      · rename_i buf st2 heq
        simp only [Option.some.injEq] at hr
        subst hr
        exact readHuffBuffer_error_mono nodes symbols fuel _ (buf, st2) heq
          (readFlag_error_mono _ h)
  · exact readHuffBuffer_error_mono nodes symbols fuel _ _ hr h

/-! ## The prefix scan of writeString computes the common prefix length -/

theorem prefixLenAux_eq_aux (scratch s : List Nat)
    (hz2 : (0 : Nat) ∉ s) (maxLen : Nat) :
    ∀ (fuel j : Nat), maxLen - j ≤ fuel → j ≤ maxLen →
      prefixLenAux scratch s maxLen j =
        min maxLen (j + lcpLen (scratch.drop j) (s.drop j)) := by
  intro fuel
  induction fuel with
  | zero =>
    intro j hf hj
    rw [prefixLenAux, dif_neg (by omega)]
    omega
  | succ m ih =>
    intro j hf hj
    rw [prefixLenAux]
    by_cases hc : j < maxLen ∧ scratch.getD j 0 = s.getD j 0 ∧ s.getD j 0 ≠ 0
    · rw [dif_pos hc, ih (j + 1) (by omega) (by omega)]
      obtain ⟨h1, h2, h3⟩ := hc
      have hjs : j < s.length := by
        by_contra hns
        push_neg at hns
        rw [List.getD_eq_default _ _ hns] at h3
        exact h3 rfl
      have hjsc : j < scratch.length := by
        by_contra hns
        push_neg at hns
        rw [List.getD_eq_default _ _ hns] at h2
        rw [← h2] at h3
        exact h3 rfl
      rw [List.drop_eq_getElem_cons hjsc, List.drop_eq_getElem_cons hjs,
        lcpLen, if_pos (by
          rw [← List.getD_eq_getElem scratch 0 hjsc,
            ← List.getD_eq_getElem s 0 hjs]
          exact h2)]
      omega
    · rw [dif_neg hc]
      rcases Nat.eq_or_lt_of_le hj with hjm | hjm
      · omega
      · have hlcp : lcpLen (scratch.drop j) (s.drop j) = 0 := by
          rcases Nat.lt_or_ge j s.length with hjs | hjs
          · have hs0 : s.getD j 0 ≠ 0 := by
              intro h0
              rw [List.getD_eq_getElem s 0 hjs] at h0
              exact hz2 (h0 ▸ List.getElem_mem hjs)
            have hne : scratch.getD j 0 ≠ s.getD j 0 := by
              intro he
              exact hc ⟨hjm, he, hs0⟩
            rcases Nat.lt_or_ge j scratch.length with hjc | hjc
            · rw [List.drop_eq_getElem_cons hjc, List.drop_eq_getElem_cons hjs,
                lcpLen, if_neg (by
                  rw [← List.getD_eq_getElem scratch 0 hjc,
                    ← List.getD_eq_getElem s 0 hjs]
                  exact hne)]
            · rw [List.drop_eq_nil_of_le hjc]
              rfl
          · rw [List.drop_eq_nil_of_le hjs]
            cases scratch.drop j <;> rfl
        rw [hlcp]
        omega

theorem prefixLen_eq (scratch s : List Nat)
    (hz2 : (0 : Nat) ∉ s) (maxLen : Nat) :
    prefixLenAux scratch s maxLen 0 = min maxLen (lcpLen scratch s) := by
  have h := prefixLenAux_eq_aux scratch s hz2 maxLen maxLen 0 (by omega)
    (by omega)
  simpa using h

/-! ## Real-arithmetic facts for the compressed-point codec -/

theorem truncS32_abs_le (x : ℝ) : (((truncS32 x).natAbs : Nat) : ℝ) ≤ |x| := by
  rw [Int.cast_natAbs, truncS32]
  split
  · rename_i hx
    have h1 : (0 : ℝ) ≤ ((⌊-x⌋ : ℤ) : ℝ) := by
      exact_mod_cast Int.floor_nonneg.mpr (by linarith : (0 : ℝ) ≤ -x)
    have h2 : ((⌊-x⌋ : ℤ) : ℝ) ≤ -x := Int.floor_le _
    rw [Int.cast_abs, Int.cast_neg, abs_neg, abs_of_nonneg h1, abs_of_neg hx]
    exact h2
  · rename_i hx
    push_neg at hx
    have h1 : (0 : ℝ) ≤ ((⌊x⌋ : ℤ) : ℝ) := by
      exact_mod_cast Int.floor_nonneg.mpr hx
    have h2 : ((⌊x⌋ : ℤ) : ℝ) ≤ x := Int.floor_le _
    rw [Int.cast_abs, abs_of_nonneg h1, abs_of_nonneg hx]
    exact h2

theorem Point3R.abs_le_len (v : Point3R) :
    |v.x| ≤ v.len ∧ |v.y| ≤ v.len ∧ |v.z| ≤ v.len := by
  have habs : ∀ t : ℝ, |t| = Real.sqrt (t * t) := by
    intro t
    rw [Real.sqrt_mul_self_eq_abs]
  have hx2 : (0 : ℝ) ≤ v.x * v.x := mul_self_nonneg v.x
  have hy2 : (0 : ℝ) ≤ v.y * v.y := mul_self_nonneg v.y
  have hz2 : (0 : ℝ) ≤ v.z * v.z := mul_self_nonneg v.z
  rw [Point3R.len]
  refine ⟨?_, ?_, ?_⟩
  · rw [habs]
    exact Real.sqrt_le_sqrt (by linarith)
  · rw [habs]
    exact Real.sqrt_le_sqrt (by linarith)
  · rw [habs]
    exact Real.sqrt_le_sqrt (by linarith)

theorem truncS32_natAbs_lt (x : ℝ) (k : Nat) (h : |x| < ((2 ^ k : Nat) : ℝ)) :
    (truncS32 x).natAbs < 2 ^ k := by
  have h1 := truncS32_abs_le x
  have h2 : (((truncS32 x).natAbs : Nat) : ℝ) < ((2 ^ k : Nat) : ℝ) :=
    lt_of_le_of_lt h1 h
  exact_mod_cast h2

theorem writeBits32_core (st : BStream) (val : Nat) (hval : val < 2 ^ 32)
    (hw : st.bitNum + 32 ≤ st.maxWriteBitNum)
    (hLw : st.maxWriteBitNum ≤ 8 * st.data.length)
    (hB : bytesLt st.data) :
    (writeBits 32 val st).bitNum = st.bitNum + 32 ∧
    (writeBits 32 val st).maxReadBitNum = st.maxReadBitNum ∧
    (writeBits 32 val st).maxWriteBitNum = st.maxWriteBitNum ∧
    (writeBits 32 val st).bufSize = st.bufSize ∧
    (writeBits 32 val st).mCompressPoint = st.mCompressPoint ∧
    (writeBits 32 val st).stringBuffer = st.stringBuffer ∧
    (writeBits 32 val st).error = st.error ∧
    (writeBits 32 val st).data.length = st.data.length ∧
    bytesLt (writeBits 32 val st).data ∧
    (∀ i, i < st.bitNum → bitAt (writeBits 32 val st).data i = bitAt st.data i) ∧
    (∀ j, j < 32 → bitAt (writeBits 32 val st).data (st.bitNum + j) =
      val.testBit j) := by
  have h := writeInt_core st 32 val (by norm_num) hval hval hw hLw hB
  rwa [writeInt_nat st 32 val hval] at h

/-! ## Claim theorems -/

/-- C1 (counterexample): at width `n = 8` the endpoint `v = -2^7 = -128` of
the claimed interval `[-2^(n-1), 2^(n-1))` does not round-trip: its magnitude
`2^7` wraps to 0 in the `n-1 = 7` magnitude bits and the value reads back as
0, not -128. -/
theorem signedInt_boundary_fails :
    -(2 ^ (8 - 1) : Int) ≤ -128 ∧ (-128 : Int) < 2 ^ (8 - 1) ∧
    (readSignedInt 8 { writeSignedInt (-128) 8 exampleStream with
      bitNum := exampleStream.bitNum }).1 = 0 ∧
    (readSignedInt 8 { writeSignedInt (-128) 8 exampleStream with
      bitNum := exampleStream.bitNum }).1 ≠ -128 := by
  refine ⟨by norm_num, by norm_num, by decide, by decide⟩

/-- C1 (amended): for every bit width `1 < n ≤ 32` and every integer `v`
strictly inside `(-2^(n-1), 2^(n-1))`, writing `v` with `writeSignedInt(v, n)`
and then reading at the same bit position with `readSignedInt(n)` returns
exactly `v` (the encoding being one sign flag followed by the magnitude in
`n-1` unsigned bits); the stream must have room below both ceilings, a buffer
covering its write ceiling, and byte-bounded contents. -/
theorem signedInt_roundtrip (st : BStream) (n : Nat) (v : Int)
    (hn1 : 1 < n) (hn2 : n ≤ 32)
    (hv1 : -(2 ^ (n - 1) : Int) < v) (hv2 : v < 2 ^ (n - 1))
    (hw : st.bitNum + n ≤ st.maxWriteBitNum)
    (hr : st.bitNum + n ≤ st.maxReadBitNum)
    (hLw : st.maxWriteBitNum ≤ 8 * st.data.length)
    (hB : bytesLt st.data) :
    (readSignedInt n { writeSignedInt v n st with bitNum := st.bitNum }).1 = v := by
  have hcast : ((2 : Int) ^ (n - 1)) = ((2 ^ (n - 1) : Nat) : Int) := by
    push_cast
    ring
  have hmag : v.natAbs < 2 ^ (n - 1) := by
    rw [hcast] at hv1 hv2
    omega
  obtain ⟨c1, c2, c3, c4, c5, c6, c7, c8, c9, c10, c11, c12⟩ :=
    writeSignedInt_core st n v (by omega) hn2 hmag hw hLw hB
  have hrd := readSignedInt_of_bits
    { writeSignedInt v n st with bitNum := st.bitNum } n v (by omega) hn2 hmag
    (by simp only [c2]; simpa [c2] using hr) (by simpa using c9)
    (by simpa using c11)
    (by
      intro j hj
      simpa using c12 j hj)
  rw [hrd]

/-- C1 witness: the amended round-trip at the concrete input `n = 8`,
`v = -5` on a fresh 4-byte stream. -/
theorem signedInt_roundtrip_witness :
    (readSignedInt 8 { writeSignedInt (-5) 8 exampleStream with
      bitNum := exampleStream.bitNum }).1 = -5 :=
  signedInt_roundtrip exampleStream 8 (-5) (by norm_num) (by norm_num)
    (by norm_num) (by norm_num) (by decide) (by decide) (by decide)
    (fun b hb => by simp [exampleStream] at hb; omega)

/-- C2: an out-of-range `writeBits` (`bit_cursor + n > max_write_bits` with
`n > 0`) sets the error flag and changes nothing else — the result is the
input stream with only `error := true` — and likewise `writeFlag` when even
one bit does not fit (it additionally returns `false`). -/
theorem write_oob_noop (st : BStream) (n src : Nat) (b : Bool)
    (hn : 0 < n) (hw : st.maxWriteBitNum < st.bitNum + n) :
    writeBits n src st = { st with error := true } ∧
    (st.maxWriteBitNum < st.bitNum + 1 →
      writeFlag b st = (false, { st with error := true })) := by
  constructor
  · rw [writeBits, if_neg (by omega), if_pos (by omega)]
  · intro h1
    rw [writeFlag, if_pos (by omega)]

/-- C2 witness: on a stream whose write ceiling is 0. -/
theorem write_oob_noop_witness :
    writeBits 1 1 fullStream = { fullStream with error := true } :=
  (write_oob_noop fullStream 1 1 true (by norm_num) (by decide)).1

/-- C3 (counterexample): an over-range read does NOT zero-fill the
destination: reading 8 bits past a zero read ceiling with destination byte 7
gives back destination [7], not the zero-filled [0] the claim requires. -/
theorem read_oob_dst_not_zeroed :
    tinyReadStream.maxReadBitNum < tinyReadStream.bitNum + 8 ∧
    (readBits 8 tinyReadStream [7]).2 = [7] ∧ ([7] : List Nat) ≠ [0] := by
  refine ⟨by decide, by decide, by decide⟩

/-- C3 (amended): for `n > 0` with `bit_cursor + n > max_read_bits`,
`readBits` sets the sticky error flag, does not advance `bit_cursor`, and is
otherwise a no-op; the destination bytes come back untouched (the code
returns before writing them, so they are not zero-filled). -/
theorem read_oob_noop (st : BStream) (n : Nat) (dst : List Nat)
    (hn : 0 < n) (hr : st.maxReadBitNum < st.bitNum + n) :
    readBits n st dst = ({ st with error := true }, dst) := by
  rw [readBits, if_neg (by omega), if_pos (by omega)]

/-- C3 witness: the amended no-op at the concrete over-read input. -/
theorem read_oob_noop_witness :
    readBits 8 tinyReadStream [7] = ({ tinyReadStream with error := true }, [7]) :=
  read_oob_noop tinyReadStream 8 [7] (by norm_num) (by decide)

/-- C4: after every successful `writeBits(n, src)` starting at bit position
`c` with the buffer covering the write ceiling: the bits of the final touched
byte above bit index `(c + n - 1) mod 8` are zero; the bits of the first
touched byte below bit index `c mod 8` keep their prior values; and bytes
outside the touched range `[c/8, (c+n-1)/8]` are unchanged. -/
theorem writeBits_frame (st : BStream) (n src : Nat) (h0 : 0 < n)
    (hw : st.bitNum + n ≤ st.maxWriteBitNum)
    (hLw : st.maxWriteBitNum ≤ 8 * st.data.length)
    (hB : bytesLt st.data) :
    (∀ r, (st.bitNum + n - 1) % 8 < r →
      ((writeBits n src st).data.getD ((st.bitNum + n - 1) / 8) 0).testBit r =
        false) ∧
    (∀ r, r < st.bitNum % 8 →
      ((writeBits n src st).data.getD (st.bitNum / 8) 0).testBit r =
        (st.data.getD (st.bitNum / 8) 0).testBit r) ∧
    (∀ b, b < st.bitNum / 8 ∨ (st.bitNum + n - 1) / 8 < b →
      (writeBits n src st).data.getD b 0 = st.data.getD b 0) := by
  have hw2 : n + st.bitNum ≤ st.maxWriteBitNum := by omega
  have hL : (n + st.bitNum - 1) / 8 < st.data.length := by omega
  refine ⟨?_, ?_, ?_⟩
  · intro r hr
    rcases Nat.lt_or_ge r 8 with hr8 | hr8
    · have ht := writeBits_bitAt_tail st n src h0 hw2 hL
        (8 * ((st.bitNum + n - 1) / 8) + r) (by omega) (by omega)
      unfold bitAt at ht
      rw [show (8 * ((st.bitNum + n - 1) / 8) + r) / 8 =
          (st.bitNum + n - 1) / 8 from by omega,
        show (8 * ((st.bitNum + n - 1) / 8) + r) % 8 = r from by omega] at ht
      exact ht
    · exact testBit_ge_8 (bytesLt_getD (writeBits_bytesLt st n src hB) _) hr8
  · intro r hr
    have hb := writeBits_bitAt_below st n src h0 hw2 hL
      (8 * (st.bitNum / 8) + r) (by omega)
    unfold bitAt at hb
    rw [show (8 * (st.bitNum / 8) + r) / 8 = st.bitNum / 8 from by omega,
      show (8 * (st.bitNum / 8) + r) % 8 = r from by omega] at hb
    exact hb
  · intro b hb
    refine writeBits_data_getD st n src h0 hw2 b ?_
    rcases hb with hb | hb
    · exact Or.inl hb
    · exact Or.inr (by omega)

/-- C4 witness: a byte outside the touched range of a 5-bit write on a fresh
stream is unchanged. -/
theorem writeBits_frame_witness :
    (writeBits 5 7 exampleStream).data.getD 2 0 = exampleStream.data.getD 2 0 :=
  (writeBits_frame exampleStream 5 7 (by norm_num) (by decide) (by decide)
    (fun b hb => by simp [exampleStream] at hb; omega)).2.2 2
    (Or.inr (by decide))

/-- C5 (counterexample): buffer binding does NOT preserve the error flag:
`setBuffer` unconditionally resets `error` to false (bitStream.cpp:133), and
`getPacketStream` calls it, so an already-errored stream comes back clean. -/
theorem setBuffer_clears_error :
    erroredStream.error = true ∧
    (setBuffer [0, 0] 2 2 erroredStream).error = false ∧
    (getPacketStream 1500 (List.replicate 1500 0) 32 erroredStream).error =
      false := by
  exact ⟨rfl, rfl, rfl⟩

/-- C5 (amended): the error flag is monotone across the data-path operations
of the stream interface — bit, int, float, normal-vector (both overloads),
bounded-magnitude vector, affine-transform, compressed-point and string reads
and writes (including the Huffman body reader and `readString`), and position
changes: if `error` is true before the operation it is still true afterward,
and none of them ever clears it. Buffer binding is the exception: `setBuffer`
(and `getPacketStream`, which calls it) reinitializes the stream and resets
`error` to false. -/
theorem error_monotone (st : BStream) (n src : Nat) (b : Bool) (v : Int)
    (dst : List Nat) (f sc : ℝ) (q : Point3R) (enc : ℝ → Nat) (dec : Nat → ℝ)
    (matan : ℝ → ℝ → ℝ) (leaves : Nat → HuffLeaf) (s : List Nat)
    (maxLen pos : Nat) (bufPtr : List Nat) (size : Nat) (maxSize : Int)
    (mn mx : ℝ) (mb ab zb : Nat) (qx qy qz qw : ℝ) (nodes : Nat → HuffNode)
    (symbols : Nat → Nat) (fuel : Nat)
    (h : st.error = true) :
    (writeBits n src st).error = true ∧
    (readBits n st dst).1.error = true ∧
    (writeFlag b st).2.error = true ∧
    (readFlag st).2.error = true ∧
    (writeInt v n st).error = true ∧
    (readInt n st).2.error = true ∧
    (writeSignedInt v n st).error = true ∧
    (readSignedInt n st).2.error = true ∧
    (writeFloat f n st).error = true ∧
    (readFloat n st).2.error = true ∧
    (writeSignedFloat f n st).error = true ∧
    (readSignedFloat n st).2.error = true ∧
    (writeNormalVector matan q n st).error = true ∧
    (readNormalVector n st).2.error = true ∧
    (writeNormalVectorAZ matan q ab zb st).error = true ∧
    (readNormalVectorAZ ab zb st).2.error = true ∧
    (writeVector matan enc q mn mx mb ab zb st).error = true ∧
    (readVector dec mx mb ab zb st).2.error = true ∧
    (writeAffineTransform enc q qx qy qz qw st).error = true ∧
    (readAffineTransform dec st).2.error = true ∧
    (writeCompressedPoint enc q sc st).error = true ∧
    (readCompressedPoint dec sc st).2.error = true ∧
    (writeHuffBuffer leaves s maxLen st).error = true ∧
    (∀ r : List Nat × BStream,
      readHuffBuffer nodes symbols fuel st = some r → r.2.error = true) ∧
    (writeString leaves s maxLen st).error = true ∧
    (∀ r : List Nat × BStream,
      readString nodes symbols fuel st = some r → r.2.error = true) ∧
    (setPosition pos st).error = true ∧
    (setCurPos pos st).error = true ∧
    (setCompressionPoint q st).error = true ∧
    (setBuffer bufPtr size maxSize st).error = false :=
  ⟨writeBits_error_mono st n src h, readBits_error_mono st n dst h,
    writeFlag_error_mono st b h, readFlag_error_mono st h,
    writeInt_error_mono st v n h, readInt_error_mono st n h,
    writeSignedInt_error_mono st v n h, readSignedInt_error_mono st n h,
    writeFloat_error_mono st f n h, readFloat_error_mono st n h,
    writeSignedFloat_error_mono st f n h, readSignedFloat_error_mono st n h,
    writeNormalVector_error_mono matan st q n h,
    readNormalVector_error_mono st n h,
    writeNormalVectorAZ_error_mono matan st q ab zb h,
    readNormalVectorAZ_error_mono st ab zb h,
    writeVector_error_mono matan enc st q mn mx mb ab zb h,
    readVector_error_mono dec st mx mb ab zb h,
    writeAffineTransform_error_mono enc st q qx qy qz qw h,
    readAffineTransform_error_mono dec st h,
    writeCompressedPoint_error_mono enc st q sc h,
    readCompressedPoint_error_mono dec st sc h,
    writeHuffBuffer_error_mono leaves st s maxLen h,
    fun r hr => readHuffBuffer_error_mono nodes symbols fuel st r hr h,
    writeString_error_mono leaves st s maxLen h,
    fun r hr => readString_error_mono nodes symbols fuel st r hr h,
    h, h, h, rfl⟩

/-- C5 witness: monotonicity at a concrete errored stream for writeBits. -/
theorem error_monotone_witness :
    (writeBits 3 5 erroredStream).error = true :=
  (error_monotone erroredStream 3 5 true 1 [0] 0 1 ⟨0, 0, 0⟩ (fun _ => 0)
    (fun _ => 0) (fun _ _ => 0) exampleLeaves [97] 255 0 [0, 0] 2 2
    0 1 4 4 4 0 0 0 1 (fun _ => ⟨-1, -1⟩) (fun _ => 97) 8 rfl).1

/-- C7 (counterexample): with NO scratch buffer bound, writeString does not
write an outer flag 0 before the Huffman body (the flag write sits inside the
`if (stringBuffer)` block): on a fresh stream the actual output differs from
the claimed flag-0-then-body format already in the cursor position and the
first byte. -/
theorem writeString_no_scratch_no_flag :
    strStream.stringBuffer = none ∧
    (writeString exampleLeaves [97] 255 strStream).bitNum = 10 ∧
    (writeStringClaimedNoScratch exampleLeaves [97] 255 strStream).bitNum = 11 ∧
    (writeString exampleLeaves [97] 255 strStream).data ≠
      (writeStringClaimedNoScratch exampleLeaves [97] 255 strStream).data := by
  refine ⟨rfl, by decide, by decide, by decide⟩

/-- C7 (amended): writeString emits this wire format: when a scratch buffer
is bound, j is the longest common prefix length of the scratch contents and
the input, capped by maxLen, and the scratch is overwritten with the input
truncated to maxLen; if j > 2 the stream gets flag 1, j as 8 bits, then the
Huffman body of the suffix string[j..] at length maxLen - j; if the scratch
is bound and j <= 2, flag 0 followed by the body of the whole string; when no
scratch buffer is bound, the body of the whole string alone, with NO outer
flag. (The input, a C string, contains no NUL bytes; the stream can take at
least the flag bit.) -/
theorem writeString_wire (leaves : Nat → HuffLeaf) (s : List Nat)
    (maxLen : Nat) (st : BStream) (hw1 : st.bitNum + 1 ≤ st.maxWriteBitNum)
    (hz2 : (0 : Nat) ∉ s) :
    writeString leaves s maxLen st =
      (match st.stringBuffer with
       | none => writeHuffBuffer leaves s maxLen st
       | some scratch =>
         if 2 < min maxLen (lcpLen scratch s) then
           writeHuffBuffer leaves (s.drop (min maxLen (lcpLen scratch s)))
             (maxLen - min maxLen (lcpLen scratch s))
             (writeInt ((min maxLen (lcpLen scratch s) : Nat) : Int) 8
               (writeFlag true
                 { st with stringBuffer := some (s.take maxLen) }).2)
         else
           writeHuffBuffer leaves s maxLen
             (writeFlag false
               { st with stringBuffer := some (s.take maxLen) }).2) := by
  rw [writeString]
  rcases hsb : st.stringBuffer with _ | scratch
  · simp only [hsb]
  · simp only [hsb]
    have hJ : prefixLenAux scratch s maxLen 0 = min maxLen (lcpLen scratch s) :=
      prefixLen_eq scratch s hz2 maxLen
    rw [hJ]
    obtain ⟨hp1, _, _⟩ := writeFlag_success
      { st with stringBuffer := some (s.take maxLen) }
      (decide (min maxLen (lcpLen scratch s) > 2)) (by simpa using hw1)
    rw [hp1]
    by_cases hj : 2 < min maxLen (lcpLen scratch s)
    · rw [decide_eq_true hj, if_pos rfl, if_pos hj]
    · rw [decide_eq_false hj, if_neg Bool.false_ne_true, if_neg hj]

/-- C7 witness: the amended wire format at the concrete input "hellow" with
the scratch holding "helloX": the common prefix length is 5, so the stream
gets flag 1, 5 in 8 bits, then the body of the suffix "w" at length 250. -/
theorem writeString_wire_witness :
    writeString exampleLeaves [104, 101, 108, 108, 111, 119] 255 scratchStream =
      writeHuffBuffer exampleLeaves [119] 250
        (writeInt 5 8 (writeFlag true { scratchStream with
          stringBuffer := some [104, 101, 108, 108, 111, 119] }).2) := by
  have h := writeString_wire exampleLeaves [104, 101, 108, 108, 111, 119] 255
    scratchStream (by decide) (by decide)
  rw [h]
  rfl

/-- C8: for every string (clamped length `len = min(strlen, maxLen)`, at most
255), the Huffman body writer computes numBits as the sum of the per-symbol
leaf code lengths and selects the smaller encoding with ties broken toward
raw: if numBits >= 8*len it writes flag 0, len in 8 bits, then the len raw
bytes; otherwise flag 1, len in 8 bits, then each symbol's code bits at its
code length. This holds for every leaf table, in particular the one built
from the baked frequency table. -/
theorem writeHuffBuffer_selects (leaves : Nat → HuffLeaf) (s : List Nat)
    (maxLen : Nat) (st : BStream)
    (_hlen : min (strlenL s) maxLen ≤ 255) :
    writeHuffBuffer leaves s maxLen st =
      (if ((s.take (min (strlenL s) maxLen)).map
            (fun b => (leaves b).numBits)).sum ≥ 8 * min (strlenL s) maxLen then
        rawStringBody s (min (strlenL s) maxLen) st
      else
        huffStringBody leaves s (min (strlenL s) maxLen) st) := by
  simp only [writeHuffBuffer, rawStringBody, huffStringBody]
  have e : (if strlenL s > maxLen then maxLen else strlenL s) =
      min (strlenL s) maxLen := by
    split <;> omega
  rw [e]

/-- C8 witness: the selection at a concrete two-symbol string under the
one-bit-per-symbol table (compressed wins). -/
theorem writeHuffBuffer_selects_witness :
    writeHuffBuffer exampleLeaves [97, 98] 255 strStream =
      (if (([97, 98].take (min (strlenL [97, 98]) 255)).map
            (fun b => (exampleLeaves b).numBits)).sum ≥
          8 * min (strlenL [97, 98]) 255 then
        rawStringBody [97, 98] (min (strlenL [97, 98]) 255) strStream
      else
        huffStringBody exampleLeaves [97, 98] (min (strlenL [97, 98]) 255)
          strStream) :=
  writeHuffBuffer_selects exampleLeaves [97, 98] 255 strStream (by decide)

/-- C9 (code_bug): `compact` on a 100-byte unbounded-append stream at byte
position 2 with `min_space = 4`: the spec says it allocates exactly
`position + 2*min_space = 10` bytes and copies the live prefix, but
`dMalloc(bufSize)` runs before `bufSize` is updated, so the fresh buffer
keeps the old size (100) and the whole old buffer is copied; only `bufSize`
and the two bit ceilings take the value 10 (and 80 bits). -/
theorem compact_keeps_old_allocation :
    (compact exampleIStream).str.data.length = 100 ∧
    getPosition exampleIStream.str + 2 * exampleIStream.mMinSpace = 10 ∧
    (compact exampleIStream).str.bufSize = 10 ∧
    (compact exampleIStream).str.maxReadBitNum = 80 ∧
    (compact exampleIStream).str.maxWriteBitNum = 80 ∧
    (compact exampleIStream).str.bitNum = exampleIStream.str.bitNum ∧
    (compact exampleIStream).str.data = exampleIStream.str.data := by
  refine ⟨by decide, by decide, by decide, by decide, by decide, by decide,
    by decide⟩

/-- C10: on a 1-byte buffer with `max_read_bits = 8`, the 8-bit read at
cursor 0 passes the bounds check (`bit_cursor + n ≤ max_read_bits`), yet the
read loop dereferences byte index `floor(0/8) + ceil(8/8) = 1`, one byte past
the end of the buffer: the Option-indexed embedding of the same loop returns
`none`, so the loop's source indexing is not covered by the precondition. -/
theorem readBits_loop_overreads :
    oneByteStream.bitNum + 8 ≤ oneByteStream.maxReadBitNum ∧
    readBitsChk 8 oneByteStream [0] = none := by
  exact ⟨by decide, rfl⟩

/-- C6: for every point `p`, anchor `a = mCompressPoint`, and `scale > 0`,
`writeCompressedPoint` writes a 2-bit tier `T` chosen from
`dist = |p - a| / scale` (`T = 0` if `dist < 2^15`, `T = 1` if `dist < 2^17`,
`T = 2` if `dist < 2^19`, else `T = 3`); for `T ≤ 2` it then
writes the three components of `(p - a) / scale` as signed ints of width
16, 18, 20 respectively, and for `T = 3` the absolute point as three raw
32-bit floats; `readCompressedPoint` adds the anchor back on the tiered
paths (recovering the quantized components) and returns the tier-3 point
untouched. Floats are idealized over ℝ and the raw 32-bit float store is
abstracted by an encode/decode pair assumed exact on the components of `p`. -/
theorem compressedPoint_roundtrip (st : BStream) (p : Point3R) (scale : ℝ)
    (enc : ℝ → Nat) (dec : Nat → ℝ) (vec : Point3R) (D : ℝ) (T w : Nat)
    (hvec : vec = Point3R.sub p st.mCompressPoint)
    (hD : D = Point3R.len vec * (1 / scale))
    (hT : T = compressedType D) (hwid : w = gBitCounts T)
    (hsc : 0 < scale)
    (hw : st.bitNum + 98 ≤ st.maxWriteBitNum)
    (hr : st.bitNum + 98 ≤ st.maxReadBitNum)
    (hLw : st.maxWriteBitNum ≤ 8 * st.data.length)
    (hB : bytesLt st.data)
    (hex : enc p.x < 2 ^ 32) (hey : enc p.y < 2 ^ 32) (hez : enc p.z < 2 ^ 32)
    (hdx : dec (enc p.x) = p.x) (hdy : dec (enc p.y) = p.y)
    (hdz : dec (enc p.z) = p.z) :
    (D < 2 ^ 15 → T = 0) ∧
    (2 ^ 15 ≤ D → D < 2 ^ 17 → T = 1) ∧
    (2 ^ 17 ≤ D → D < 2 ^ 19 → T = 2) ∧
    (2 ^ 19 ≤ D → T = 3) ∧
    (T ≤ 2 → writeCompressedPoint enc p scale st =
      writeSignedInt (truncS32 (vec.z * (1 / scale))) w
        (writeSignedInt (truncS32 (vec.y * (1 / scale))) w
          (writeSignedInt (truncS32 (vec.x * (1 / scale))) w
            (writeInt (T : Int) 2 st)))) ∧
    (T ≤ 2 → readCompressedPoint dec scale
        { writeCompressedPoint enc p scale st with bitNum := st.bitNum } =
      (⟨st.mCompressPoint.x + ((truncS32 (vec.x * (1 / scale)) : ℤ) : ℝ) * scale,
        st.mCompressPoint.y + ((truncS32 (vec.y * (1 / scale)) : ℤ) : ℝ) * scale,
        st.mCompressPoint.z + ((truncS32 (vec.z * (1 / scale)) : ℤ) : ℝ) * scale⟩,
        { writeCompressedPoint enc p scale st with
          bitNum := st.bitNum + 2 + 3 * w })) ∧
    (T = 3 → readCompressedPoint dec scale
        { writeCompressedPoint enc p scale st with bitNum := st.bitNum } =
      (p, { writeCompressedPoint enc p scale st with
        bitNum := st.bitNum + 98 })) := by
  have hc0 : (2 : ℝ) ^ 15 ≤ 2 ^ 17 := by norm_num
  have hc1 : (2 : ℝ) ^ 17 ≤ 2 ^ 19 := by norm_num
  have hc2 : (2 : ℝ) ^ 15 ≤ 2 ^ 19 := by norm_num
  have htier1 : D < 2 ^ 15 → T = 0 := by
    intro h
    rw [hT, compressedType, if_pos h]
  have htier2 : 2 ^ 15 ≤ D → D < 2 ^ 17 → T = 1 := by
    intro h1 h2
    rw [hT, compressedType, if_neg (by linarith), if_pos h2]
  have htier3 : 2 ^ 17 ≤ D → D < 2 ^ 19 → T = 2 := by
    intro h1 h2
    rw [hT, compressedType, if_neg (by linarith), if_neg (by linarith),
      if_pos h2]
  have htier4 : 2 ^ 19 ≤ D → T = 3 := by
    intro h1
    rw [hT, compressedType, if_neg (by linarith), if_neg (by linarith),
      if_neg (by linarith)]
  have hinv0 : compressedType D = 0 → D < 2 ^ 15 := by
    intro h
    by_contra hn
    push_neg at hn
    rw [compressedType, if_neg (by linarith)] at h
    split at h
    · omega
    · split at h <;> omega
  have hinv1 : compressedType D = 1 → D < 2 ^ 17 := by
    intro h
    by_contra hn
    push_neg at hn
    rw [compressedType] at h
    split at h
    · omega
    · rw [if_neg (by linarith)] at h
      split at h <;> omega
  have hinv2 : compressedType D = 2 → D < 2 ^ 19 := by
    intro h
    by_contra hn
    push_neg at hn
    rw [compressedType, if_neg (by linarith), if_neg (by linarith),
      if_neg (by linarith)] at h
    omega
  have hstruct : T ≤ 2 → writeCompressedPoint enc p scale st =
      writeSignedInt (truncS32 (vec.z * (1 / scale))) w
        (writeSignedInt (truncS32 (vec.y * (1 / scale))) w
          (writeSignedInt (truncS32 (vec.x * (1 / scale))) w
            (writeInt (T : Int) 2 st))) := by
    intro hT2
    simp only [writeCompressedPoint]
    rw [← hvec, ← hD, ← hT, ← hwid]
    rw [if_pos (show T ≠ 3 from by omega)]
  have hstruct3 : T = 3 → writeCompressedPoint enc p scale st =
      writeBits 32 (enc p.z) (writeBits 32 (enc p.y)
        (writeBits 32 (enc p.x) (writeInt (T : Int) 2 st))) := by
    intro hT3
    simp only [writeCompressedPoint]
    rw [← hvec, ← hD, ← hT]
    rw [if_neg (show ¬ T ≠ 3 from by omega)]
  have hinvsc : (0 : ℝ) < 1 / scale := by positivity
  have hDw : T ≤ 2 → D < ((2 ^ (w - 1) : Nat) : ℝ) := by
    intro hT2
    have hcast : ∀ k : Nat, ((2 ^ k : Nat) : ℝ) = 2 ^ k := by
      intro k
      push_cast
      ring
    interval_cases T
    · rw [hwid, show gBitCounts 0 - 1 = 15 from rfl, hcast]
      exact hinv0 hT.symm
    · rw [hwid, show gBitCounts 1 - 1 = 17 from rfl, hcast]
      exact hinv1 hT.symm
    · rw [hwid, show gBitCounts 2 - 1 = 19 from rfl, hcast]
      exact hinv2 hT.symm
  have hmag : T ≤ 2 → ∀ t : ℝ, |t| ≤ Point3R.len vec →
      (truncS32 (t * (1 / scale))).natAbs < 2 ^ (w - 1) := by
    intro hT2 t ht
    refine truncS32_natAbs_lt _ _ ?_
    have habs2 : |t * (1 / scale)| = |t| * (1 / scale) := by
      rw [abs_mul, abs_of_pos hinvsc]
    rw [habs2]
    have h2 : |t| * (1 / scale) ≤ Point3R.len vec * (1 / scale) :=
      mul_le_mul_of_nonneg_right ht (le_of_lt hinvsc)
    rw [← hD] at h2
    exact lt_of_le_of_lt h2 (hDw hT2)
  refine ⟨htier1, htier2, htier3, htier4, hstruct, ?_, ?_⟩
  · -- tiered round trip
    intro hT2
    have hwr : 2 ≤ w ∧ w ≤ 32 ∧ w ≤ 20 := by
      interval_cases T
      · rw [hwid]
        exact ⟨by decide, by decide, by decide⟩
      · rw [hwid]
        exact ⟨by decide, by decide, by decide⟩
      · rw [hwid]
        exact ⟨by decide, by decide, by decide⟩
    obtain ⟨hww2, hww32, hww20⟩ := hwr
    have hT4 : T < 2 ^ 2 := by omega
    have hT32 : T < 2 ^ 32 := by omega
    set tx := truncS32 (vec.x * (1 / scale)) with htx
    set ty := truncS32 (vec.y * (1 / scale)) with hty
    set tz := truncS32 (vec.z * (1 / scale)) with htz
    have hmx : tx.natAbs < 2 ^ (w - 1) :=
      hmag hT2 _ (Point3R.abs_le_len vec).1
    have hmy : ty.natAbs < 2 ^ (w - 1) :=
      hmag hT2 _ (Point3R.abs_le_len vec).2.1
    have hmz : tz.natAbs < 2 ^ (w - 1) :=
      hmag hT2 _ (Point3R.abs_le_len vec).2.2
    obtain ⟨a1, a2, a3, a4, a5, a6, a7, a8, a9, a10, a11⟩ :=
      writeInt_core st 2 T (by norm_num) hT4 hT32 (by omega) hLw hB
    set st1 := writeInt (T : Int) 2 st with hst1
    obtain ⟨x1, x2, x3, x4, x5, x6, x7, x8, x9, x10, x11, x12⟩ :=
      writeSignedInt_core st1 w tx hww2 hww32 hmx
        (by rw [a1, a3]; omega) (by rw [a3, a8]; exact hLw) a9
    set st2 := writeSignedInt tx w st1 with hst2
    obtain ⟨y1, y2, y3, y4, y5, y6, y7, y8, y9, y10, y11, y12⟩ :=
      writeSignedInt_core st2 w ty hww2 hww32 hmy
        (by rw [x1, a1, x3, a3]; omega) (by rw [x3, a3, x8, a8]; exact hLw) x9
    set st3 := writeSignedInt ty w st2 with hst3
    obtain ⟨z1, z2, z3, z4, z5, z6, z7, z8, z9, z10, z11, z12⟩ :=
      writeSignedInt_core st3 w tz hww2 hww32 hmz
        (by rw [y1, x1, a1, y3, x3, a3]; omega)
        (by rw [y3, x3, a3, y8, x8, a8]; exact hLw) y9
    set W := writeSignedInt tz w st3 with hWdef
    have bitsT : ∀ j, j < 2 → bitAt W.data (st.bitNum + j) = T.testBit j := by
      intro j hj
      rw [z10 _ (by rw [y1, x1, a1]; omega), y10 _ (by rw [x1, a1]; omega),
        x10 _ (by rw [a1]; omega)]
      exact a11 j hj
    have flagx : bitAt W.data (st.bitNum + 2) = decide (tx < 0) := by
      rw [z10 _ (by rw [y1, x1, a1]; omega), y10 _ (by rw [x1, a1]; omega)]
      rw [a1] at x11
      exact x11
    have magx : ∀ j, j < w - 1 →
        bitAt W.data (st.bitNum + 2 + 1 + j) = tx.natAbs.testBit j := by
      intro j hj
      rw [z10 _ (by rw [y1, x1, a1]; omega), y10 _ (by rw [x1, a1]; omega)]
      have h := x12 j hj
      rw [a1] at h
      exact h
    have flagy : bitAt W.data (st.bitNum + 2 + w) = decide (ty < 0) := by
      rw [z10 _ (by rw [y1, x1, a1]; omega)]
      rw [x1, a1] at y11
      exact y11
    have magy : ∀ j, j < w - 1 →
        bitAt W.data (st.bitNum + 2 + w + 1 + j) = ty.natAbs.testBit j := by
      intro j hj
      rw [z10 _ (by rw [y1, x1, a1]; omega)]
      have h := y12 j hj
      rw [x1, a1] at h
      exact h
    have flagz : bitAt W.data (st.bitNum + 2 + w + w) = decide (tz < 0) := by
      rw [y1, x1, a1] at z11
      rw [show st.bitNum + 2 + w + w = st.bitNum + 2 + w + w from rfl]
      exact z11
    have magz : ∀ j, j < w - 1 →
        bitAt W.data (st.bitNum + 2 + w + w + 1 + j) = tz.natAbs.testBit j := by
      intro j hj
      have h := z12 j hj
      rw [y1, x1, a1] at h
      exact h
    have hmaxr : W.maxReadBitNum = st.maxReadBitNum := by
      rw [z2, y2, x2, a2]
    have hWB : bytesLt W.data := z9
    have e1 : readInt 2 { W with bitNum := st.bitNum } =
        ((T : Int), { W with bitNum := st.bitNum + 2 }) := by
      have h := readInt_eq { W with bitNum := st.bitNum } 2 T (by norm_num)
        (by norm_num) (by simp only; rw [hmaxr]; omega) (by simpa using hWB) hT4
        (by
          intro j hj
          simpa using bitsT j hj)
      simpa using h
    have e2 : readSignedInt w { W with bitNum := st.bitNum + 2 } =
        (tx, { W with bitNum := st.bitNum + 2 + w }) := by
      have h := readSignedInt_of_bits { W with bitNum := st.bitNum + 2 } w tx
        hww2 hww32 hmx (by simp only; rw [hmaxr]; omega) (by simpa using hWB)
        (by simpa using flagx)
        (by
          intro j hj
          simpa using magx j hj)
      simpa using h
    have e3 : readSignedInt w { W with bitNum := st.bitNum + 2 + w } =
        (ty, { W with bitNum := st.bitNum + 2 + w + w }) := by
      have h := readSignedInt_of_bits { W with bitNum := st.bitNum + 2 + w } w ty
        hww2 hww32 hmy (by simp only; rw [hmaxr]; omega) (by simpa using hWB)
        (by simpa using flagy)
        (by
          intro j hj
          simpa using magy j hj)
      simpa using h
    have e4 : readSignedInt w { W with bitNum := st.bitNum + 2 + w + w } =
        (tz, { W with bitNum := st.bitNum + 2 + w + w + w }) := by
      have h := readSignedInt_of_bits { W with bitNum := st.bitNum + 2 + w + w }
        w tz hww2 hww32 hmz (by simp only; rw [hmaxr]; omega)
        (by simpa using hWB) (by simpa using flagz)
        (by
          intro j hj
          simpa using magz j hj)
      simpa using h
    have hne3 : ¬ ((T : Nat) : Int) = 3 := by omega
    have hanchor : W.mCompressPoint = st.mCompressPoint := by
      rw [z5, y5, x5, a5]
    rw [hstruct hT2]
    simp only [readCompressedPoint, e1, hne3, if_false, Int.toNat_natCast,
      ← hwid, e2, e3, e4]
    rw [hanchor, show st.bitNum + 2 + w + w + w = st.bitNum + 2 + 3 * w from
      by ring]
  · -- tier 3 round trip
    intro hT3
    subst hT3
    obtain ⟨a1, a2, a3, a4, a5, a6, a7, a8, a9, a10, a11⟩ :=
      writeInt_core st 2 3 (by norm_num) (by norm_num) (by norm_num)
        (by omega) hLw hB
    set st1 := writeInt ((3 : Nat) : Int) 2 st with hst1
    obtain ⟨b1, b2, b3, b4, b5, b6, b7, b8, b9, b10, b11⟩ :=
      writeBits32_core st1 (enc p.x) hex (by rw [a1, a3]; omega)
        (by rw [a3, a8]; exact hLw) a9
    set st2 := writeBits 32 (enc p.x) st1 with hst2
    obtain ⟨c1, c2, c3, c4, c5, c6, c7, c8, c9, c10, c11⟩ :=
      writeBits32_core st2 (enc p.y) hey (by rw [b1, a1, b3, a3]; omega)
        (by rw [b3, a3, b8, a8]; exact hLw) b9
    set st3 := writeBits 32 (enc p.y) st2 with hst3
    obtain ⟨d1, d2, d3, d4, d5, d6, d7, d8, d9, d10, d11⟩ :=
      writeBits32_core st3 (enc p.z) hez (by rw [c1, b1, a1, c3, b3, a3]; omega)
        (by rw [c3, b3, a3, c8, b8, a8]; exact hLw) c9
    set W := writeBits 32 (enc p.z) st3 with hWdef
    have bitsT : ∀ j, j < 2 →
        bitAt W.data (st.bitNum + j) = (3 : Nat).testBit j := by
      intro j hj
      rw [d10 _ (by rw [c1, b1, a1]; omega), c10 _ (by rw [b1, a1]; omega),
        b10 _ (by rw [a1]; omega)]
      exact a11 j hj
    have bitsX : ∀ j, j < 32 →
        bitAt W.data (st.bitNum + 2 + j) = (enc p.x).testBit j := by
      intro j hj
      rw [d10 _ (by rw [c1, b1, a1]; omega), c10 _ (by rw [b1, a1]; omega)]
      have h := b11 j hj
      rw [a1] at h
      exact h
    have bitsY : ∀ j, j < 32 →
        bitAt W.data (st.bitNum + 2 + 32 + j) = (enc p.y).testBit j := by
      intro j hj
      rw [d10 _ (by rw [c1, b1, a1]; omega)]
      have h := c11 j hj
      rw [b1, a1] at h
      exact h
    have bitsZ : ∀ j, j < 32 →
        bitAt W.data (st.bitNum + 2 + 32 + 32 + j) = (enc p.z).testBit j := by
      intro j hj
      have h := d11 j hj
      rw [c1, b1, a1] at h
      exact h
    have hmaxr : W.maxReadBitNum = st.maxReadBitNum := by
      rw [d2, c2, b2, a2]
    have hWB : bytesLt W.data := d9
    have e1 : readInt 2 { W with bitNum := st.bitNum } =
        ((3 : Int), { W with bitNum := st.bitNum + 2 }) := by
      have h := readInt_eq { W with bitNum := st.bitNum } 2 3 (by norm_num)
        (by norm_num) (by simp only; rw [hmaxr]; omega) (by simpa using hWB)
        (by norm_num)
        (by
          intro j hj
          simpa using bitsT j hj)
      simpa using h
    have fx : (readBits 32 { W with bitNum := st.bitNum + 2 } [0, 0, 0, 0]).1 =
        { W with bitNum := st.bitNum + 2 + 32 } := by
      have h := readBits_fst { W with bitNum := st.bitNum + 2 } 32 [0, 0, 0, 0]
        (by norm_num) (by simp only; rw [hmaxr]; omega)
      simpa using h
    have vx : natOfBytes
        (readBits 32 { W with bitNum := st.bitNum + 2 } [0, 0, 0, 0]).2 =
        enc p.x := by
      have h := readBits32_natOfBytes { W with bitNum := st.bitNum + 2 }
        (enc p.x) (by simp only; rw [hmaxr]; omega) (by simpa using hWB) hex
        (by
          intro j hj
          simpa using bitsX j hj)
      simpa using h
    have fy : (readBits 32 { W with bitNum := st.bitNum + 2 + 32 }
        [0, 0, 0, 0]).1 = { W with bitNum := st.bitNum + 2 + 32 + 32 } := by
      have h := readBits_fst { W with bitNum := st.bitNum + 2 + 32 } 32
        [0, 0, 0, 0] (by norm_num) (by simp only; rw [hmaxr]; omega)
      simpa using h
    have vy : natOfBytes (readBits 32 { W with bitNum := st.bitNum + 2 + 32 }
        [0, 0, 0, 0]).2 = enc p.y := by
      have h := readBits32_natOfBytes { W with bitNum := st.bitNum + 2 + 32 }
        (enc p.y) (by simp only; rw [hmaxr]; omega) (by simpa using hWB) hey
        (by
          intro j hj
          simpa using bitsY j hj)
      simpa using h
    have fz : (readBits 32 { W with bitNum := st.bitNum + 2 + 32 + 32 }
        [0, 0, 0, 0]).1 = { W with bitNum := st.bitNum + 2 + 32 + 32 + 32 } := by
      have h := readBits_fst { W with bitNum := st.bitNum + 2 + 32 + 32 } 32
        [0, 0, 0, 0] (by norm_num) (by simp only; rw [hmaxr]; omega)
      simpa using h
    have vz : natOfBytes
        (readBits 32 { W with bitNum := st.bitNum + 2 + 32 + 32 }
          [0, 0, 0, 0]).2 = enc p.z := by
      have h := readBits32_natOfBytes { W with bitNum := st.bitNum + 2 + 32 + 32 }
        (enc p.z) (by simp only; rw [hmaxr]; omega) (by simpa using hWB) hez
        (by
          intro j hj
          simpa using bitsZ j hj)
      simpa using h
    rw [hstruct3 rfl]
    simp only [readCompressedPoint, e1, Nat.cast_ofNat, fx, vx, fy, vy, fz, vz,
      hdx, hdy, hdz]
    rw [show st.bitNum + 2 + 32 + 32 + 32 = st.bitNum + 98 from by ring]
    rw [if_pos trivial]

theorem compressedPoint_roundtrip_witness :
    compressedType
      (Point3R.len (Point3R.sub ⟨0, 0, 0⟩ cpStream.mCompressPoint) * (1 / 1)) =
      0 ∧
    (readCompressedPoint (fun _ => (0 : ℝ)) 1
        { writeCompressedPoint (fun _ => (0 : Nat)) ⟨0, 0, 0⟩ 1 cpStream with
          bitNum := cpStream.bitNum }).2.bitNum =
      cpStream.bitNum + 2 + 3 * gBitCounts (compressedType
        (Point3R.len (Point3R.sub ⟨0, 0, 0⟩ cpStream.mCompressPoint) *
          (1 / 1))) := by
  have h := compressedPoint_roundtrip cpStream ⟨0, 0, 0⟩ 1 (fun _ => 0)
    (fun _ => 0) (Point3R.sub ⟨0, 0, 0⟩ cpStream.mCompressPoint)
    (Point3R.len (Point3R.sub ⟨0, 0, 0⟩ cpStream.mCompressPoint) * (1 / 1))
    (compressedType
      (Point3R.len (Point3R.sub ⟨0, 0, 0⟩ cpStream.mCompressPoint) * (1 / 1)))
    (gBitCounts (compressedType
      (Point3R.len (Point3R.sub ⟨0, 0, 0⟩ cpStream.mCompressPoint) * (1 / 1))))
    rfl rfl rfl rfl (by norm_num) (by decide) (by decide) (by decide)
    (by
      intro b hb
      simp [cpStream] at hb
      omega)
    (by norm_num) (by norm_num) (by norm_num) rfl rfl rfl
  have hD : Point3R.len (Point3R.sub ⟨0, 0, 0⟩ cpStream.mCompressPoint) *
      (1 / 1) < 2 ^ 15 := by
    norm_num [cpStream, Point3R.sub, Point3R.len]
  have hT0 := h.1 hD
  refine ⟨hT0, ?_⟩
  have h6 := h.2.2.2.2.2.1 (by rw [hT0]; norm_num)
  rw [h6]

end BitStreamModel
